import Mathlib

/-!
# Verification of the graph-coloring frequency-assignment engine

Shallow embedding of `src/graph_coloring.py`: the `Graph` data structure
(nodes / edges / adjacency index), the four coloring algorithms
(greedy, Welsh-Powell, DSATUR, exact backtracking) and the statistics
projection, together with proofs of the specification's claims.

Modelling conventions:
* A Python `dict` is an insertion-ordered association list `List (Nat × α)`
  with unique keys; writing to an existing key updates in place, a new key
  is appended (CPython dict semantics).
* A Python `set` of node ids or colors is a duplicate-free `List Nat`;
  `set.add` appends when absent.  The only place where the *iteration order*
  of a set is observable is DSATUR's `max(uncolored, key=...)`; there the
  `uncolored` set is modelled as a list kept in ascending order, matching
  CPython's iteration order for sets of small consecutive non-negative
  integers (the ids every graph in this repository uses), so Python's
  `max` (which keeps the first element among key-ties) selects the
  smallest id among ties.
* Reading `self.nodes[k]` for an absent key raises `KeyError` in Python;
  the algorithms only ever read keys that are present, and the total
  models below return a default (`none` color / no-op update) in the
  unreachable absent case.
* Wall-clock fields (`time_ms`, `round`ing of the float efficiency for
  display) are not modelled: they are reporting-only values.
-/

namespace GraphColoring

/-! ## Association-list dictionaries (Python `dict`) -/

/-- First-match lookup in an association list (Python `d[k]` / `d.get(k)`). -/
def dictLookup {α : Type} (l : List (Nat × α)) (k : Nat) : Option α :=
  match l with
  | [] => none
  | (k', v) :: rest => if k' = k then some v else dictLookup rest k

/-- The key list of a dictionary, in insertion order (Python `d.keys()`). -/
def dictKeys {α : Type} (l : List (Nat × α)) : List Nat :=
  l.map Prod.fst

/-- Dictionary write `d[k] = v`: updates the first entry with key `k` in
place, appends a new entry when `k` is absent (CPython dict semantics). -/
def dictSet {α : Type} (l : List (Nat × α)) (k : Nat) (v : α) : List (Nat × α) :=
  match l with
  | [] => [(k, v)]
  | (k', v') :: rest => if k' = k then (k, v) :: rest else (k', v') :: dictSet rest k v

/-- Python `set.add`: append when absent, no-op when present. -/
def setAdd (l : List Nat) (x : Nat) : List Nat :=
  if x ∈ l then l else l ++ [x]

/-- Ascending insertion used by `sortAsc`. -/
def insertAsc (x : Nat) : List Nat → List Nat
  | [] => [x]
  | y :: l => if x ≤ y then x :: y :: l else y :: insertAsc x l

/-- `sorted(...)` on a list of ids (Python ascending sort). -/
def sortAsc : List Nat → List Nat
  | [] => []
  | x :: l => insertAsc x (sortAsc l)

/-! ## The data model (`Node`, `Graph`) -/

/-- The fields of a `Node` that the engine reads or writes.  The `position`
field is opaque to every algorithm and is omitted. -/
structure NodeData where
  id : Nat
  color : Option Nat
  degree : Nat
  saturation : Nat
  neighbors : List Nat
deriving Repr, DecidableEq

/-- The `Graph` class: node dictionary, edge list, and the
`defaultdict(set)` adjacency index. -/
structure Graph where
  nodes : List (Nat × NodeData)
  edges : List (Nat × Nat)
  adjacency : List (Nat × List Nat)
deriving Repr, DecidableEq

/-- The adjacency set of `u` as a value: `defaultdict` lookup semantics,
an absent key reads as the empty set. -/
def adjGet (g : Graph) (u : Nat) : List Nat :=
  (dictLookup g.adjacency u).getD []

/-- The empty graph (`Graph()` with `num_nodes = 0`). -/
def Graph.empty : Graph :=
  { nodes := [], edges := [], adjacency := [] }

/-- `Graph.add_node`: no-op when the id is present, otherwise insert a
fresh uncolored node of degree 0. -/
def Graph.add_node (g : Graph) (node_id : Nat) : Graph :=
  if node_id ∈ dictKeys g.nodes then g
  else { g with nodes := g.nodes ++
          [(node_id, { id := node_id, color := none, degree := 0,
                       saturation := 0, neighbors := [] })] }

/-- Apply `f` to the node stored at key `k` (models `self.nodes[k].field = ...`;
the algorithms only invoke it on present keys, where Python would otherwise
raise `KeyError`). -/
def updateNode (g : Graph) (k : Nat) (f : NodeData → NodeData) : Graph :=
  { g with nodes := g.nodes.map (fun p => if p.1 = k then (p.1, f p.2) else p) }

/-- `Graph.add_edge`: returns the post-state together with the raised
exception message, if any.  The `raise` is the first statement of the
method, so the raising branch returns the receiver unchanged.  The
mutations of the success branch are sequenced exactly as in the source
(edges append, `adjacency[u].add(v)`, `adjacency[v].add(u)`, both degree
increments, both neighbor-set adds). -/
def Graph.add_edge (g : Graph) (u v : Nat) : Graph × Option String :=
  if u ∉ dictKeys g.nodes ∨ v ∉ dictKeys g.nodes then
    (g, some "Nodes not in graph")
  else if u ≠ v ∧ v ∉ adjGet g u then
    let g1 := { g with edges := g.edges ++ [(u, v)] }
    let g2 := { g1 with adjacency := dictSet g1.adjacency u (setAdd (adjGet g1 u) v) }
    let g3 := { g2 with adjacency := dictSet g2.adjacency v (setAdd (adjGet g2 v) u) }
    let g4 := updateNode g3 u (fun nd => { nd with degree := nd.degree + 1 })
    let g5 := updateNode g4 v (fun nd => { nd with degree := nd.degree + 1 })
    let g6 := updateNode g5 u (fun nd => { nd with neighbors := setAdd nd.neighbors v })
    let g7 := updateNode g6 v (fun nd => { nd with neighbors := setAdd nd.neighbors u })
    (g7, none)
  else (g, none)

/-- The color of node `u`, `none` when `u` is absent or uncolored. -/
def nodeColor (g : Graph) (u : Nat) : Option Nat :=
  (dictLookup g.nodes u).bind (fun nd => nd.color)

/-- `Graph.get_neighbor_colors` (the returned value): fold over the
adjacency set of `node_id`, collecting the colors of colored neighbors.
A neighbor absent from `nodes` would raise `KeyError` in Python; it is
skipped here and is unreachable for well-formed graphs. -/
def Graph.get_neighbor_colors (g : Graph) (node_id : Nat) : List Nat :=
  (adjGet g node_id).foldl
    (fun colors neighbor =>
      match dictLookup g.nodes neighbor with
      | some nd =>
        match nd.color with
        | some c => setAdd colors c
        | none => colors
      | none => colors)
    []

/-- `Graph.get_neighbor_colors` as executed: `self.adjacency[node_id]` on a
`defaultdict` *inserts* an empty entry when `node_id` has none, so the call
returns the color set together with the (possibly mutated) graph. -/
def get_neighbor_colors_run (g : Graph) (node_id : Nat) : List Nat × Graph :=
  let g' := if node_id ∈ dictKeys g.adjacency then g
            else { g with adjacency := g.adjacency ++ [(node_id, [])] }
  (g'.get_neighbor_colors node_id, g')

/-- `Graph.get_chromatic_number`: the number of distinct non-null colors
(`len({node.color for node in nodes.values() if node.color is not None})`). -/
def Graph.get_chromatic_number (g : Graph) : Nat :=
  ((g.nodes.filterMap (fun p => p.2.color)).dedup).length

/-- `Graph.count_conflicts`: the number of edges whose endpoints are both
colored with equal colors. -/
def Graph.count_conflicts (g : Graph) : Nat :=
  g.edges.countP (fun e =>
    match nodeColor g e.1, nodeColor g e.2 with
    | some a, some b => a == b
    | _, _ => false)

/-- `Graph.reset_colors`: set every color to `None` and every saturation
to 0; edges, adjacency and degrees untouched. -/
def Graph.reset_colors (g : Graph) : Graph :=
  { g with nodes := g.nodes.map (fun p => (p.1, { p.2 with color := none, saturation := 0 })) }

/-- `self.graph.nodes[k].color = c`. -/
def setColor (g : Graph) (k : Nat) (c : Option Nat) : Graph :=
  updateNode g k (fun nd => { nd with color := c })

/-- `self.graph.nodes[k].saturation = s`. -/
def setSat (g : Graph) (k : Nat) (s : Nat) : Graph :=
  updateNode g k (fun nd => { nd with saturation := s })

/-- The degree of node `n` (0 when absent, unreachable in the engine). -/
def degreeOf (g : Graph) (n : Nat) : Nat :=
  ((dictLookup g.nodes n).map NodeData.degree).getD 0

/-- The saturation of node `n` (0 when absent, unreachable in the engine). -/
def satOf (g : Graph) (n : Nat) : Nat :=
  ((dictLookup g.nodes n).map NodeData.saturation).getD 0

/-! ## The four algorithms (`FrequencyAssigner`) -/

/-- The `while color in neighbor_colors: color += 1` loop of
`get_smallest_available_color`, starting from `c`.  The loop is bounded by
a fuel parameter so that it evaluates by structural recursion; with the
fuel used below the fuel never runs out (`availAux_spec`), because a list
holds at most `length` many of the candidates `c, c+1, …`. -/
def availAux (l : List Nat) : Nat → Nat → Nat
  | 0, c => c
  | fuel + 1, c => if c ∈ l then availAux l fuel (c + 1) else c

/-- `FrequencyAssigner.get_smallest_available_color`: the smallest
non-negative integer not in the neighbor-color set. -/
def get_smallest_available_color (neighbor_colors : List Nat) : Nat :=
  availAux neighbor_colors (neighbor_colors.length + 1) 0

/-- First-fit coloring pass over the given id order (the shared body of
`greedy_coloring` and `welsh_powell`). -/
def colorNodesInOrder (g : Graph) (order : List Nat) : Graph :=
  order.foldl
    (fun h node_id =>
      setColor h node_id (some (get_smallest_available_color (h.get_neighbor_colors node_id))))
    g

/-- `FrequencyAssigner.greedy_coloring`: reset, then first-fit over
`sorted(self.graph.nodes.keys())`. -/
def greedy_coloring (g : Graph) : Graph :=
  let g0 := g.reset_colors
  colorNodesInOrder g0 (sortAsc (dictKeys g0.nodes))

/-- Stable insertion for the descending-degree sort: a node is placed
before the first already-sorted node whose degree does not exceed it,
so equal-degree nodes keep their original (insertion) order, matching
Python's stable `sorted(..., key=degree, reverse=True)`. -/
def insertByDegDesc (p : Nat × NodeData) : List (Nat × NodeData) → List (Nat × NodeData)
  | [] => [p]
  | q :: l => if q.2.degree ≤ p.2.degree then p :: q :: l else q :: insertByDegDesc p l

/-- Stable sort of the node entries by descending degree. -/
def sortByDegDesc : List (Nat × NodeData) → List (Nat × NodeData)
  | [] => []
  | p :: l => insertByDegDesc p (sortByDegDesc l)

/-- `FrequencyAssigner.welsh_powell`: reset, then first-fit over the nodes
sorted by descending degree (stable). -/
def welsh_powell (g : Graph) : Graph :=
  let g0 := g.reset_colors
  colorNodesInOrder g0 ((sortByDegDesc g0.nodes).map Prod.fst)

/-- Python's `max(l, key=...)` keeps the first element whose key is
strictly maximal; fold with the current best. -/
def maxByDegAux (g : Graph) (best : Nat) : List Nat → Nat
  | [] => best
  | x :: l => maxByDegAux g (if degreeOf g best < degreeOf g x then x else best) l

/-- `max(uncolored, key=lambda n: nodes[n].degree)`: the first
maximum-degree node in iteration order. -/
def dsatur_first_choice (g : Graph) (uncolored : List Nat) : Nat :=
  match uncolored with
  | [] => 0
  | x :: l => maxByDegAux g x l

/-- Strict lexicographic comparison of `(saturation, degree)` keys
(Python tuple `>`). -/
def lexGt (p q : Nat × Nat) : Bool :=
  q.1 < p.1 || (p.1 = q.1 && q.2 < p.2)

/-- Fold for `max(uncolored, key=lambda n: (saturation, degree))`. -/
def maxBySatDegAux (g : Graph) (best : Nat) : List Nat → Nat
  | [] => best
  | x :: l =>
    maxBySatDegAux g
      (if lexGt (satOf g x, degreeOf g x) (satOf g best, degreeOf g best) then x else best) l

/-- The DSATUR per-step selection: highest saturation, ties by higher
degree, remaining ties by iteration order (first, i.e. smallest id on the
ascending `uncolored` list). -/
def dsatur_select (g : Graph) (uncolored : List Nat) : Nat :=
  match uncolored with
  | [] => 0
  | x :: l => maxBySatDegAux g x l

theorem maxBySatDegAux_mem (g : Graph) :
    ∀ (l : List Nat) (best : Nat), maxBySatDegAux g best l ∈ best :: l := by
  intro l
  induction l with
  | nil => intro best; simp [maxBySatDegAux]
  | cons x xs ih =>
    intro best
    simp only [maxBySatDegAux]
    by_cases hc : lexGt (satOf g x, degreeOf g x) (satOf g best, degreeOf g best) = true
    · rw [if_pos hc]
      rcases List.mem_cons.mp (ih x) with h | h
      · simp [h]
      · simp [h]
    · rw [if_neg hc]
      rcases List.mem_cons.mp (ih best) with h | h
      · simp [h]
      · simp [h]

theorem dsatur_select_mem (g : Graph) (uncolored : List Nat) (h : uncolored ≠ []) :
    dsatur_select g uncolored ∈ uncolored := by
  cases uncolored with
  | nil => exact absurd rfl h
  | cons x l => exact maxBySatDegAux_mem g l x

/-- The assignment step of the DSATUR loop body:
`node.color = get_smallest_available_color(get_neighbor_colors(selected))`. -/
def dsaturAssign (g : Graph) (selected : Nat) : Graph :=
  setColor g selected
    (some (get_smallest_available_color (g.get_neighbor_colors selected)))

/-- The saturation-recompute loop of the DSATUR body: for each still
uncolored neighbor of the just-colored node, saturation becomes the size
of its current neighbor-color set. -/
def dsaturSatUpdate (g1 : Graph) (selected : Nat) (unc1 : List Nat) : Graph :=
  (adjGet g1 selected).foldl
    (fun h neighbor =>
      if neighbor ∈ unc1 then setSat h neighbor (h.get_neighbor_colors neighbor).length
      else h) g1

/-- The `while uncolored:` loop of DSATUR: select, color first-fit,
remove from `uncolored`, then recompute the saturation of every still
uncolored neighbor of the just-colored node.  The loop runs exactly
`|uncolored|` iterations (each one removes the selected member), so it is
written with a fuel parameter initialized to that length. -/
def dsaturLoop : Nat → Graph → List Nat → Graph
  | 0, g, _ => g
  | fuel + 1, g, uncolored =>
    if uncolored = [] then g
    else
      let selected := dsatur_select g uncolored
      let unc1 := uncolored.erase selected
      dsaturLoop fuel (dsaturSatUpdate (dsaturAssign g selected) selected unc1) unc1

/-- The initial saturation bump of DSATUR: each still uncolored neighbor
of the seed node gets `saturation += 1`. -/
def dsaturInitSat (g1 : Graph) (first_node : Nat) (unc1 : List Nat) : Graph :=
  (adjGet g1 first_node).foldl
    (fun h neighbor =>
      if neighbor ∈ unc1 then setSat h neighbor (satOf h neighbor + 1) else h) g1

/-- `FrequencyAssigner.dsatur`: reset, seed the maximum-degree node with
color 0 and bump its uncolored neighbors' saturation, then run the loop. -/
def dsatur (g : Graph) : Graph :=
  let g0 := g.reset_colors
  let uncolored := sortAsc (dictKeys g0.nodes)
  match uncolored with
  | [] => g0
  | _ :: _ =>
    let first_node := dsatur_first_choice g0 uncolored
    let g1 := setColor g0 first_node (some 0)
    let unc1 := uncolored.erase first_node
    dsaturLoop unc1.length (dsaturInitSat g1 first_node unc1) unc1

/-! ## Backtracking-Exact -/

/-- The `for color in range(max_colors)` loop of `backtrack`: skip colors
used by neighbors; otherwise assign, recurse through `bt_rest` (the
search over the remaining node ids), and undo the assignment on failure.
`neighbor_colors` is computed once at loop entry, as in the source. -/
def tryColors (node_id : Nat) (bt_rest : Graph → Graph × Bool)
    (neighbor_colors : List Nat) : List Nat → Graph → Graph × Bool
  | [], g => (g, false)
  | color :: cs, g =>
    if color ∈ neighbor_colors then
      tryColors node_id bt_rest neighbor_colors cs g
    else
      let r := bt_rest (setColor g node_id (some color))
      if r.2 then r
      else tryColors node_id bt_rest neighbor_colors cs (setColor r.1 node_id none)

/-- `backtrack(idx)` over the suffix of still-unprocessed node ids:
returns the post-state graph and the success flag. -/
def backtrack (k : Nat) (g : Graph) : List Nat → Graph × Bool
  | [] => (g, true)
  | node_id :: rest =>
    tryColors node_id (fun h => backtrack k h rest)
      (g.get_neighbor_colors node_id) (List.range k) g

/-- `FrequencyAssigner.backtracking_exact` up to the final result
packaging: reset, default the budget to the node count, and search over
the node ids in insertion order. -/
def backtracking_run (g : Graph) (max_colors : Option Nat) : Graph × Bool :=
  let g0 := g.reset_colors
  let k := max_colors.getD g0.nodes.length
  backtrack k g0 (dictKeys g0.nodes)

/-! ## Statistics -/

/-- The statistics record (`self.stats`); `time_ms` is wall-clock
reporting and is not modelled, and `efficiency` is kept exact as a
rational (the source additionally rounds the float for display). -/
structure Stats where
  algorithm : String
  chromatic_number : Nat
  conflicts : Nat
  efficiency : ℚ
  nodes : Nat
  edges : Nat
deriving Repr, DecidableEq

/-- `FrequencyAssigner._compute_stats`. -/
def compute_stats (g : Graph) (algorithm : String) : Stats :=
  let chromatic := g.get_chromatic_number
  let conflicts := g.count_conflicts
  let num_nodes := g.nodes.length
  let efficiency : ℚ :=
    if num_nodes > 0 then ((num_nodes : ℚ) - (chromatic : ℚ)) / (num_nodes : ℚ) * 100 else 0
  { algorithm := algorithm, chromatic_number := chromatic, conflicts := conflicts,
    efficiency := efficiency, nodes := num_nodes, edges := g.edges.length }

/-- The value returned by `backtracking_exact`: either the error record
`{'error': ...}` or the normal statistics record. -/
inductive BTResult where
  | failure (message : String) : BTResult
  | success (stats : Stats) : BTResult
deriving Repr, DecidableEq

/-- `FrequencyAssigner.backtracking_exact`: the returned value together
with the post-state of the graph. -/
def backtracking_exact (g : Graph) (max_colors : Option Nat) : BTResult × Graph :=
  let r := backtracking_run g max_colors
  if r.2 then (BTResult.success (compute_stats r.1 "Backtracking-Exact"), r.1)
  else (BTResult.failure "No solution found with given color limit", r.1)

/-! ## Construction by operation sequences and the graph invariants -/

/-- A mutating operation on the graph-building interface. -/
inductive Op where
  | addNode (node_id : Nat) : Op
  | addEdge (u v : Nat) : Op
deriving Repr, DecidableEq

/-- Apply one operation; a raising `add_edge` leaves the graph unchanged
(the exception aborts the method before any mutation). -/
def applyOp (g : Graph) (op : Op) : Graph :=
  match op with
  | Op.addNode i => g.add_node i
  | Op.addEdge u v => (g.add_edge u v).1

/-- The graph reached from the empty graph by a sequence of operations. -/
def buildGraph (ops : List Op) : Graph :=
  ops.foldl applyOp Graph.empty

/-- `Graph(num_nodes)`: the constructor adds nodes `0..num_nodes-1`. -/
def Graph.init (num_nodes : Nat) : Graph :=
  buildGraph ((List.range num_nodes).map Op.addNode)

/-- Two directed pairs denote the same undirected edge. -/
def sameEdge (e f : Nat × Nat) : Prop :=
  e = f ∨ e = (f.2, f.1)

instance (e f : Nat × Nat) : Decidable (sameEdge e f) := by
  unfold sameEdge; infer_instance

/-- The structural well-formedness invariant of a `Graph`: unique
dictionary keys, duplicate-free adjacency sets, edges between distinct
existing nodes, no duplicated undirected pair, mutual agreement of the
edge list with the adjacency index, and agreement of each node's stored
`degree` and `neighbors` with its adjacency set. -/
def GraphWF (g : Graph) : Prop :=
  (dictKeys g.nodes).Nodup ∧
  (dictKeys g.adjacency).Nodup ∧
  (∀ p ∈ g.adjacency, p.2.Nodup) ∧
  (∀ e ∈ g.edges, e.1 ∈ dictKeys g.nodes ∧ e.2 ∈ dictKeys g.nodes ∧ e.1 ≠ e.2) ∧
  g.edges.Pairwise (fun e f => ¬ sameEdge e f) ∧
  (∀ p ∈ g.adjacency, ∀ v ∈ p.2, (p.1, v) ∈ g.edges ∨ (v, p.1) ∈ g.edges) ∧
  (∀ e ∈ g.edges, e.2 ∈ adjGet g e.1 ∧ e.1 ∈ adjGet g e.2) ∧
  (∀ p ∈ g.nodes, p.2.id = p.1 ∧ p.2.degree = (adjGet g p.1).length ∧
    p.2.neighbors = adjGet g p.1)

instance (g : Graph) : Decidable (GraphWF g) := by
  unfold GraphWF; infer_instance

/-! ## Dictionary lemmas -/

theorem dictKeys_nil {α : Type} : dictKeys ([] : List (Nat × α)) = [] := rfl

theorem dictKeys_cons {α : Type} (p : Nat × α) (l : List (Nat × α)) :
    dictKeys (p :: l) = p.1 :: dictKeys l := rfl

theorem dictKeys_append {α : Type} (l l' : List (Nat × α)) :
    dictKeys (l ++ l') = dictKeys l ++ dictKeys l' :=
  List.map_append _ _ _

theorem dictLookup_eq_none {α : Type} (l : List (Nat × α)) (k : Nat) :
    dictLookup l k = none ↔ k ∉ dictKeys l := by
  induction l with
  | nil => simp [dictLookup, dictKeys]
  | cons p rest ih =>
    by_cases h : p.1 = k
    · simp only [dictLookup, if_pos h, dictKeys_cons, h]
      simp
    · simp only [dictLookup, if_neg h, dictKeys_cons, ih, List.mem_cons]
      constructor
      · rintro hk (he | hm)
        · exact h he.symm
        · exact hk hm
      · intro hk hm
        exact hk (Or.inr hm)

theorem dictLookup_isSome {α : Type} (l : List (Nat × α)) (k : Nat) :
    (dictLookup l k).isSome ↔ k ∈ dictKeys l := by
  rcases hl : dictLookup l k with _ | v
  · simpa using (dictLookup_eq_none l k).mp hl
  · simp only [Option.isSome_some, true_iff]
    by_contra hk
    rw [(dictLookup_eq_none l k).mpr hk] at hl
    cases hl

theorem dictLookup_mem {α : Type} {l : List (Nat × α)} {k : Nat} {v : α}
    (h : dictLookup l k = some v) : (k, v) ∈ l := by
  induction l with
  | nil => cases h
  | cons p rest ih =>
    obtain ⟨k', v'⟩ := p
    by_cases hk : k' = k
    · subst hk
      simp only [dictLookup, if_pos rfl] at h
      cases h
      exact List.mem_cons_self _ _
    · simp only [dictLookup, if_neg hk] at h
      exact List.mem_cons_of_mem _ (ih h)

theorem mem_dictKeys_of_mem {α : Type} {l : List (Nat × α)} {p : Nat × α}
    (h : p ∈ l) : p.1 ∈ dictKeys l :=
  List.mem_map_of_mem Prod.fst h

theorem dictLookup_of_mem_nodup {α : Type} {l : List (Nat × α)} {p : Nat × α}
    (hnd : (dictKeys l).Nodup) (h : p ∈ l) : dictLookup l p.1 = some p.2 := by
  induction l with
  | nil => cases h
  | cons q rest ih =>
    rcases List.mem_cons.mp h with h1 | h1
    · subst h1
      simp [dictLookup]
    · have hq : q.1 ≠ p.1 := by
        intro he
        have : p.1 ∈ dictKeys rest := mem_dictKeys_of_mem h1
        rw [← he] at this
        exact (List.nodup_cons.mp hnd).1 this
      simp only [dictLookup, if_neg hq]
      exact ih (List.nodup_cons.mp hnd).2 h1

theorem dictLookup_dictSet_self {α : Type} (l : List (Nat × α)) (k : Nat) (v : α) :
    dictLookup (dictSet l k v) k = some v := by
  induction l with
  | nil => simp [dictSet, dictLookup]
  | cons p rest ih =>
    by_cases h : p.1 = k
    · simp [dictSet, dictLookup, h]
    · simp only [dictSet]
      rw [if_neg h]
      simp only [dictLookup, if_neg h]
      exact ih

theorem dictLookup_dictSet_ne {α : Type} (l : List (Nat × α)) (k k' : Nat) (v : α)
    (h : k' ≠ k) : dictLookup (dictSet l k v) k' = dictLookup l k' := by
  have hkk' : ¬ (k = k') := fun he => h he.symm
  induction l with
  | nil =>
    simp only [dictSet, dictLookup]
    rw [if_neg hkk']
  | cons p rest ih =>
    by_cases hp : p.1 = k
    · simp only [dictSet, if_pos hp, dictLookup]
      rw [if_neg hkk']
      have hpk' : ¬ (p.1 = k') := by rw [hp]; exact hkk'
      rw [if_neg hpk']
    · simp only [dictSet, if_neg hp, dictLookup]
      by_cases hp' : p.1 = k'
      · rw [if_pos hp', if_pos hp']
      · rw [if_neg hp', if_neg hp']
        exact ih

theorem dictKeys_dictSet_of_mem {α : Type} {l : List (Nat × α)} {k : Nat} (v : α)
    (h : k ∈ dictKeys l) : dictKeys (dictSet l k v) = dictKeys l := by
  induction l with
  | nil => cases h
  | cons p rest ih =>
    by_cases hp : p.1 = k
    · obtain ⟨k1, v1⟩ := p
      simp only at hp
      subst hp
      simp [dictSet, dictKeys_cons]
    · have hrest : k ∈ dictKeys rest := by
        rcases List.mem_cons.mp (by rwa [dictKeys_cons] at h) with h1 | h1
        · exact absurd h1.symm hp
        · exact h1
      simp only [dictSet, if_neg hp, dictKeys_cons, ih hrest]

theorem dictKeys_dictSet_of_not_mem {α : Type} {l : List (Nat × α)} {k : Nat} (v : α)
    (h : k ∉ dictKeys l) : dictKeys (dictSet l k v) = dictKeys l ++ [k] := by
  induction l with
  | nil => simp [dictSet, dictKeys]
  | cons p rest ih =>
    have hp : p.1 ≠ k := by
      intro he
      apply h
      rw [dictKeys_cons, he]
      exact List.mem_cons_self _ _
    have hrest : k ∉ dictKeys rest := by
      intro hk
      apply h
      rw [dictKeys_cons]
      exact List.mem_cons_of_mem _ hk
    simp only [dictSet, if_neg hp, dictKeys_cons, ih hrest, List.cons_append]

theorem dictLookup_append_left {α : Type} {l : List (Nat × α)} (l' : List (Nat × α))
    {k : Nat} (h : k ∈ dictKeys l) :
    dictLookup (l ++ l') k = dictLookup l k := by
  induction l with
  | nil => cases h
  | cons p rest ih =>
    by_cases hp : p.1 = k
    · simp only [List.cons_append, dictLookup, if_pos hp]
    · have hrest : k ∈ dictKeys rest := by
        rcases List.mem_cons.mp (by rwa [dictKeys_cons] at h) with h1 | h1
        · exact absurd h1.symm hp
        · exact h1
      simp only [List.cons_append, dictLookup, if_neg hp]
      exact ih hrest

theorem dictLookup_append_right {α : Type} {l : List (Nat × α)} (l' : List (Nat × α))
    {k : Nat} (h : k ∉ dictKeys l) :
    dictLookup (l ++ l') k = dictLookup l' k := by
  induction l with
  | nil => simp
  | cons p rest ih =>
    have hp : p.1 ≠ k := by
      intro he
      apply h
      rw [dictKeys_cons, he]
      exact List.mem_cons_self _ _
    have hrest : k ∉ dictKeys rest := by
      intro hk
      apply h
      rw [dictKeys_cons]
      exact List.mem_cons_of_mem _ hk
    simp only [List.cons_append, dictLookup, if_neg hp]
    exact ih hrest

/-- Lookup through an entry-wise value transformation. -/
theorem dictLookup_map_entry {α : Type} (l : List (Nat × α)) (k k' : Nat) (f : α → α) :
    dictLookup (l.map (fun p => if p.1 = k then (p.1, f p.2) else p)) k'
      = if k' = k then (dictLookup l k').map f else dictLookup l k' := by
  induction l with
  | nil => by_cases hk' : k' = k <;> simp [dictLookup, hk']
  | cons p rest ih =>
    simp only [List.map_cons]
    by_cases hp : p.1 = k
    · rw [if_pos hp]
      by_cases hpk' : p.1 = k'
      · simp only [dictLookup, if_pos hpk']
        have hk'k : k' = k := by rw [← hpk', hp]
        rw [if_pos hk'k]
        rfl
      · simp only [dictLookup, if_neg hpk']
        exact ih
    · rw [if_neg hp]
      by_cases hpk' : p.1 = k'
      · simp only [dictLookup, if_pos hpk']
        have hk'k : ¬ (k' = k) := by rw [← hpk']; exact hp
        rw [if_neg hk'k]
      · simp only [dictLookup, if_neg hpk']
        exact ih

theorem dictKeys_map_entry {α : Type} (l : List (Nat × α)) (k : Nat) (f : α → α) :
    dictKeys (l.map (fun p => if p.1 = k then (p.1, f p.2) else p)) = dictKeys l := by
  induction l with
  | nil => rfl
  | cons p rest ih =>
    simp only [List.map_cons, dictKeys_cons]
    by_cases hp : p.1 = k
    · rw [if_pos hp]
      rw [show ((p.1, f p.2) : Nat × α).1 = p.1 from rfl, ih]
    · rw [if_neg hp, ih]

/-! ## `setAdd` lemmas -/

theorem mem_setAdd {l : List Nat} {x y : Nat} :
    x ∈ setAdd l y ↔ x ∈ l ∨ x = y := by
  unfold setAdd
  by_cases h : y ∈ l
  · rw [if_pos h]
    constructor
    · exact Or.inl
    · rintro (h1 | rfl)
      · exact h1
      · exact h
  · rw [if_neg h]
    simp

theorem setAdd_nodup {l : List Nat} (h : l.Nodup) (y : Nat) : (setAdd l y).Nodup := by
  unfold setAdd
  by_cases hy : y ∈ l
  · rwa [if_pos hy]
  · rw [if_neg hy]
    rw [List.nodup_append]
    refine ⟨h, List.nodup_singleton y, ?_⟩
    intro a ha hb
    rw [List.mem_singleton.mp hb] at ha
    exact hy ha

theorem setAdd_of_not_mem {l : List Nat} {y : Nat} (h : y ∉ l) :
    setAdd l y = l ++ [y] := if_neg h

theorem setAdd_of_mem {l : List Nat} {y : Nat} (h : y ∈ l) :
    setAdd l y = l := if_pos h

theorem length_setAdd_le (l : List Nat) (y : Nat) :
    (setAdd l y).length ≤ l.length + 1 := by
  unfold setAdd
  by_cases h : y ∈ l
  · rw [if_pos h]; omega
  · rw [if_neg h]; simp

/-! ## Frame lemmas for the node mutators -/

theorem updateNode_edges (g : Graph) (k : Nat) (f : NodeData → NodeData) :
    (updateNode g k f).edges = g.edges := rfl

theorem updateNode_adjacency (g : Graph) (k : Nat) (f : NodeData → NodeData) :
    (updateNode g k f).adjacency = g.adjacency := rfl

theorem adjGet_updateNode (g : Graph) (k : Nat) (f : NodeData → NodeData) (u : Nat) :
    adjGet (updateNode g k f) u = adjGet g u := rfl

theorem updateNode_keys (g : Graph) (k : Nat) (f : NodeData → NodeData) :
    dictKeys (updateNode g k f).nodes = dictKeys g.nodes :=
  dictKeys_map_entry _ _ _

theorem dictLookup_updateNode (g : Graph) (k : Nat) (f : NodeData → NodeData) (k' : Nat) :
    dictLookup (updateNode g k f).nodes k'
      = if k' = k then (dictLookup g.nodes k').map f else dictLookup g.nodes k' :=
  dictLookup_map_entry _ _ _ _

theorem nodeColor_setColor_self {g : Graph} {k : Nat} (h : k ∈ dictKeys g.nodes)
    (c : Option Nat) : nodeColor (setColor g k c) k = c := by
  unfold nodeColor setColor
  rw [dictLookup_updateNode, if_pos rfl]
  rcases hl : dictLookup g.nodes k with _ | nd
  · exact absurd ((dictLookup_eq_none _ _).mp hl) (by simpa using h)
  · rfl

theorem nodeColor_setColor_ne (g : Graph) {k u : Nat} (h : u ≠ k) (c : Option Nat) :
    nodeColor (setColor g k c) u = nodeColor g u := by
  unfold nodeColor setColor
  rw [dictLookup_updateNode, if_neg h]

theorem nodeColor_setSat (g : Graph) (k : Nat) (s : Nat) (u : Nat) :
    nodeColor (setSat g k s) u = nodeColor g u := by
  unfold nodeColor setSat
  rw [dictLookup_updateNode]
  by_cases h : u = k
  · rw [if_pos h]
    rcases dictLookup g.nodes u with _ | nd <;> rfl
  · rw [if_neg h]

theorem setColor_keys (g : Graph) (k : Nat) (c : Option Nat) :
    dictKeys (setColor g k c).nodes = dictKeys g.nodes :=
  updateNode_keys _ _ _

theorem setSat_keys (g : Graph) (k : Nat) (s : Nat) :
    dictKeys (setSat g k s).nodes = dictKeys g.nodes :=
  updateNode_keys _ _ _

theorem reset_colors_edges (g : Graph) : g.reset_colors.edges = g.edges := rfl

theorem reset_colors_adjacency (g : Graph) : g.reset_colors.adjacency = g.adjacency := rfl

theorem adjGet_reset_colors (g : Graph) (u : Nat) : adjGet g.reset_colors u = adjGet g u := rfl

theorem reset_colors_keys (g : Graph) :
    dictKeys g.reset_colors.nodes = dictKeys g.nodes := by
  unfold Graph.reset_colors dictKeys
  rw [List.map_map]
  rfl

theorem dictLookup_map_val {α β : Type} (l : List (Nat × α)) (f : α → β) (k : Nat) :
    dictLookup (l.map (fun p => (p.1, f p.2))) k = (dictLookup l k).map f := by
  induction l with
  | nil => rfl
  | cons p rest ih =>
    by_cases hp : p.1 = k
    · simp only [List.map_cons, dictLookup, if_pos hp]
      rfl
    · simp only [List.map_cons, dictLookup, if_neg hp]
      exact ih

theorem dictLookup_reset_colors (g : Graph) (k : Nat) :
    dictLookup g.reset_colors.nodes k
      = (dictLookup g.nodes k).map (fun nd => { nd with color := none, saturation := 0 }) := by
  have h := dictLookup_map_val g.nodes
    (fun nd => { nd with color := none, saturation := 0 }) k
  exact h

theorem nodeColor_reset_colors (g : Graph) (u : Nat) :
    nodeColor g.reset_colors u = none := by
  unfold nodeColor
  rw [dictLookup_reset_colors]
  rcases dictLookup g.nodes u with _ | nd <;> rfl

/-- The color-and-key projection of the node dictionary: two graphs with
the same projection have the same node colors (and the same node keys). -/
def colorMap (g : Graph) : List (Nat × Option Nat) :=
  g.nodes.map (fun p => (p.1, p.2.color))

theorem dictLookup_colorMap (g : Graph) (k : Nat) :
    dictLookup (colorMap g) k = (dictLookup g.nodes k).map (fun nd => nd.color) :=
  dictLookup_map_val g.nodes _ k

theorem nodeColor_eq_of_colorMap {g g' : Graph} (h : colorMap g' = colorMap g) (u : Nat) :
    nodeColor g' u = nodeColor g u := by
  have h1 := dictLookup_colorMap g' u
  have h2 := dictLookup_colorMap g u
  rw [h] at h1
  have h3 : (dictLookup g'.nodes u).map (fun nd => nd.color)
      = (dictLookup g.nodes u).map (fun nd => nd.color) := by rw [← h1, h2]
  unfold nodeColor
  rcases hl' : dictLookup g'.nodes u with _ | nd' <;> rcases hl : dictLookup g.nodes u with _ | nd
  · rfl
  · rw [hl', hl] at h3; cases h3
  · rw [hl', hl] at h3; cases h3
  · rw [hl', hl] at h3
    simpa using h3

theorem colorMap_setSat (g : Graph) (k s : Nat) : colorMap (setSat g k s) = colorMap g := by
  unfold colorMap setSat updateNode
  rw [List.map_map]
  apply List.map_congr_left
  intro p _
  by_cases hp : p.1 = k
  · simp [hp]
  · simp [hp]

/-- The list of assigned colors, in node insertion order. -/
def colorsOf (g : Graph) : List Nat :=
  g.nodes.filterMap (fun p => p.2.color)

theorem colorsOf_eq_of_colorMap {g g' : Graph} (h : colorMap g' = colorMap g) :
    colorsOf g' = colorsOf g := by
  have h1 : colorsOf g' = (colorMap g').filterMap (fun q => q.2) := by
    unfold colorsOf colorMap
    rw [List.filterMap_map]
    rfl
  have h2 : colorsOf g = (colorMap g).filterMap (fun q => q.2) := by
    unfold colorsOf colorMap
    rw [List.filterMap_map]
    rfl
  rw [h1, h2, h]

theorem mem_colorsOf {g : Graph} {c : Nat} :
    c ∈ colorsOf g ↔ ∃ p ∈ g.nodes, p.2.color = some c := by
  unfold colorsOf
  rw [List.mem_filterMap]

theorem nodeColor_mem_colorsOf {g : Graph} {u c : Nat} (h : nodeColor g u = some c) :
    c ∈ colorsOf g := by
  unfold nodeColor at h
  rcases hl : dictLookup g.nodes u with _ | nd
  · rw [hl] at h; cases h
  · rw [hl] at h
    exact mem_colorsOf.mpr ⟨(u, nd), dictLookup_mem hl, h⟩

/-! ## First-fit (`get_smallest_available_color`) lemmas -/

/-- Advancing the candidate strictly shrinks the set of list members that
are still candidates, whenever the current candidate is a member. -/
theorem length_filter_ge_succ_lt {c : Nat} :
    ∀ {l : List Nat}, c ∈ l →
      (l.filter (fun d => decide (c + 1 ≤ d))).length
        < (l.filter (fun d => decide (c ≤ d))).length := by
  intro l hc
  induction l with
  | nil => cases hc
  | cons x xs ih =>
    have hmono : (xs.filter (fun d => decide (c + 1 ≤ d))).length
        ≤ (xs.filter (fun d => decide (c ≤ d))).length := by
      apply List.Sublist.length_le
      apply List.monotone_filter_right
      intro a ha
      simp only [decide_eq_true_eq] at ha ⊢
      omega
    by_cases hx : x = c
    · subst hx
      simp only [List.filter_cons]
      rw [if_neg (by simp), if_pos (by simp)]
      simp only [List.length_cons]
      omega
    · have hc' : c ∈ xs := by
        rcases List.mem_cons.mp hc with h | h
        · exact absurd h.symm hx
        · exact h
      simp only [List.filter_cons]
      by_cases hcx : c ≤ x
      · have hcx1 : c + 1 ≤ x := by
          rcases Nat.eq_or_lt_of_le hcx with h | h
          · exact absurd h.symm hx
          · exact h
        rw [if_pos (by simpa using hcx1), if_pos (by simpa using hcx)]
        simp only [List.length_cons]
        exact Nat.succ_lt_succ (ih hc')
      · have hcx1 : ¬ (c + 1 ≤ x) := by omega
        rw [if_neg (by simpa using hcx1), if_neg (by simpa using hcx)]
        exact ih hc'

/-- With enough fuel the loop finds the smallest candidate not in the
list: the result is not a member, is at least the start, and everything
between start and result is a member. -/
theorem availAux_spec (l : List Nat) : ∀ (fuel c : Nat),
    (l.filter (fun d => decide (c ≤ d))).length < fuel →
    availAux l fuel c ∉ l ∧ c ≤ availAux l fuel c ∧
      ∀ d, c ≤ d → d < availAux l fuel c → d ∈ l := by
  intro fuel
  induction fuel with
  | zero =>
    intro c h
    exact absurd h (Nat.not_lt_zero _)
  | succ fuel ih =>
    intro c hlen
    by_cases hc : c ∈ l
    · have heq : availAux l (fuel + 1) c = availAux l fuel (c + 1) := by
        simp only [availAux, if_pos hc]
      have hlen' : (l.filter (fun d => decide (c + 1 ≤ d))).length < fuel := by
        have := length_filter_ge_succ_lt hc
        omega
      rcases ih (c + 1) hlen' with ⟨h1, h2, h3⟩
      rw [heq]
      refine ⟨h1, by omega, ?_⟩
      intro d hcd hd
      rcases Nat.eq_or_lt_of_le hcd with rfl | hlt
      · exact hc
      · exact h3 d hlt hd
    · have heq : availAux l (fuel + 1) c = c := by
        simp only [availAux, if_neg hc]
      rw [heq]
      exact ⟨hc, le_refl c, fun d hcd hd => absurd hd (by omega)⟩

theorem gsac_spec (l : List Nat) :
    get_smallest_available_color l ∉ l ∧
      ∀ d, d < get_smallest_available_color l → d ∈ l := by
  have h := availAux_spec l (l.length + 1) 0 (by
    have := List.length_filter_le (fun d => decide (0 ≤ d)) l
    omega)
  exact ⟨h.1, fun d hd => h.2.2 d (Nat.zero_le d) hd⟩

theorem gsac_not_mem (l : List Nat) : get_smallest_available_color l ∉ l :=
  (gsac_spec l).1

theorem gsac_min {l : List Nat} {d : Nat} (h : d < get_smallest_available_color l) :
    d ∈ l :=
  (gsac_spec l).2 d h

theorem gsac_le_length {l : List Nat} (hnd : l.Nodup) :
    get_smallest_available_color l ≤ l.length := by
  have hsub : Finset.range (get_smallest_available_color l) ⊆ l.toFinset := by
    intro d hd
    exact List.mem_toFinset.mpr (gsac_min (Finset.mem_range.mp hd))
  have h1 := Finset.card_le_card hsub
  rw [Finset.card_range, List.toFinset_card_of_nodup hnd] at h1
  exact h1

theorem gsac_eq_of_iff {l : List Nat} {k : Nat} (h : ∀ c, c ∈ l ↔ c < k) :
    get_smallest_available_color l = k := by
  have h1 := gsac_not_mem l
  have h2 : ¬ (get_smallest_available_color l < k) := fun hlt => h1 ((h _).mpr hlt)
  have h3 : ¬ (k < get_smallest_available_color l) := by
    intro hlt
    exact absurd ((h k).mp (gsac_min hlt)) (lt_irrefl k)
  omega

/-! ## Characterization of `get_neighbor_colors` -/

/-- One step of the neighbor-color collection fold. -/
def ncStep (g : Graph) (colors : List Nat) (neighbor : Nat) : List Nat :=
  match dictLookup g.nodes neighbor with
  | some nd =>
    match nd.color with
    | some c => setAdd colors c
    | none => colors
  | none => colors

theorem get_neighbor_colors_eq_fold (g : Graph) (v : Nat) :
    g.get_neighbor_colors v = (adjGet g v).foldl (ncStep g) [] := rfl

theorem ncStep_lookup_none {g : Graph} {u : Nat} (colors : List Nat)
    (hl : dictLookup g.nodes u = none) : ncStep g colors u = colors := by
  unfold ncStep
  simp only [hl]

theorem ncStep_color_none {g : Graph} {u : Nat} {nd : NodeData} (colors : List Nat)
    (hl : dictLookup g.nodes u = some nd) (hc : nd.color = none) :
    ncStep g colors u = colors := by
  unfold ncStep
  simp only [hl, hc]

theorem ncStep_color_some {g : Graph} {u : Nat} {nd : NodeData} {d : Nat}
    (colors : List Nat) (hl : dictLookup g.nodes u = some nd) (hc : nd.color = some d) :
    ncStep g colors u = setAdd colors d := by
  unfold ncStep
  simp only [hl, hc]

theorem mem_ncStep {g : Graph} {colors : List Nat} {u c : Nat} :
    c ∈ ncStep g colors u ↔ c ∈ colors ∨ nodeColor g u = some c := by
  unfold nodeColor
  rcases hl : dictLookup g.nodes u with _ | nd
  · rw [ncStep_lookup_none colors hl]
    simp
  · rcases hc : nd.color with _ | d
    · rw [ncStep_color_none colors hl hc]
      simp only [Option.some_bind, hc]
      simp
    · rw [ncStep_color_some colors hl hc, mem_setAdd]
      simp only [Option.some_bind, hc, Option.some.injEq]
      constructor
      · rintro (h | h)
        · exact Or.inl h
        · exact Or.inr h.symm
      · rintro (h | h)
        · exact Or.inl h
        · exact Or.inr h.symm

theorem mem_ncFold {g : Graph} (l : List Nat) (acc : List Nat) (c : Nat) :
    c ∈ l.foldl (ncStep g) acc ↔ c ∈ acc ∨ ∃ u ∈ l, nodeColor g u = some c := by
  induction l generalizing acc with
  | nil => simp
  | cons x xs ih =>
    rw [List.foldl_cons, ih]
    rw [mem_ncStep]
    constructor
    · rintro ((h | h) | ⟨u, hu, hc⟩)
      · exact Or.inl h
      · exact Or.inr ⟨x, List.mem_cons_self _ _, h⟩
      · exact Or.inr ⟨u, List.mem_cons_of_mem _ hu, hc⟩
    · rintro (h | ⟨u, hu, hc⟩)
      · exact Or.inl (Or.inl h)
      · rcases List.mem_cons.mp hu with rfl | hu'
        · exact Or.inl (Or.inr hc)
        · exact Or.inr ⟨u, hu', hc⟩

theorem mem_get_neighbor_colors {g : Graph} {v c : Nat} :
    c ∈ g.get_neighbor_colors v ↔ ∃ u ∈ adjGet g v, nodeColor g u = some c := by
  rw [get_neighbor_colors_eq_fold, mem_ncFold]
  simp

theorem ncFold_nodup {g : Graph} (l : List Nat) (acc : List Nat) (h : acc.Nodup) :
    (l.foldl (ncStep g) acc).Nodup := by
  induction l generalizing acc with
  | nil => exact h
  | cons x xs ih =>
    rw [List.foldl_cons]
    apply ih
    rcases hl : dictLookup g.nodes x with _ | nd
    · rw [ncStep_lookup_none acc hl]
      exact h
    · rcases hc : nd.color with _ | d
      · rw [ncStep_color_none acc hl hc]
        exact h
      · rw [ncStep_color_some acc hl hc]
        exact setAdd_nodup h d

theorem get_neighbor_colors_nodup (g : Graph) (v : Nat) :
    (g.get_neighbor_colors v).Nodup := by
  rw [get_neighbor_colors_eq_fold]
  exact ncFold_nodup _ _ List.nodup_nil

theorem ncFold_length {g : Graph} (l : List Nat) (acc : List Nat) :
    (l.foldl (ncStep g) acc).length ≤ acc.length + l.length := by
  induction l generalizing acc with
  | nil => simp
  | cons x xs ih =>
    rw [List.foldl_cons]
    have h1 := ih (ncStep g acc x)
    have h2 : (ncStep g acc x).length ≤ acc.length + 1 := by
      rcases hl : dictLookup g.nodes x with _ | nd
      · rw [ncStep_lookup_none acc hl]
        omega
      · rcases hc : nd.color with _ | d
        · rw [ncStep_color_none acc hl hc]
          omega
        · rw [ncStep_color_some acc hl hc]
          exact length_setAdd_le acc d
    simp only [List.length_cons]
    omega

theorem get_neighbor_colors_length (g : Graph) (v : Nat) :
    (g.get_neighbor_colors v).length ≤ (adjGet g v).length := by
  rw [get_neighbor_colors_eq_fold]
  have := ncFold_length (g := g) (adjGet g v) []
  simpa using this

/-! ## Proper colorings -/

/-- No edge has two endpoints colored alike. -/
def Proper (g : Graph) : Prop :=
  ∀ e ∈ g.edges, ∀ a b : Nat, nodeColor g e.1 = some a → nodeColor g e.2 = some b → a ≠ b

/-- The edge list and the adjacency index agree (both directions); the
part of `GraphWF` that first-fit safety needs. -/
def EdgeAdj (g : Graph) : Prop :=
  ∀ e ∈ g.edges, e.2 ∈ adjGet g e.1 ∧ e.1 ∈ adjGet g e.2

theorem count_conflicts_eq_zero {g : Graph} (h : Proper g) : g.count_conflicts = 0 := by
  unfold Graph.count_conflicts
  rw [List.countP_eq_zero]
  intro e he
  rcases h1 : nodeColor g e.1 with _ | a
  · simp [h1]
  · rcases h2 : nodeColor g e.2 with _ | b
    · simp [h1, h2]
    · simp only [h1, h2]
      intro hbeq
      exact h e he a b h1 h2 (by simpa using hbeq)

theorem proper_reset (g : Graph) : Proper g.reset_colors := by
  intro e _ a b ha _
  rw [nodeColor_reset_colors] at ha
  cases ha

theorem proper_of_colorMap {g g' : Graph} (hc : colorMap g' = colorMap g)
    (he : g'.edges = g.edges) (h : Proper g) : Proper g' := by
  intro e hme a b ha hb
  rw [he] at hme
  rw [nodeColor_eq_of_colorMap hc] at ha hb
  exact h e hme a b ha hb

/-- Assigning a node a color outside its neighbor-color set preserves
properness (on graphs whose edges are mirrored in the adjacency index and
have no self-loops). -/
theorem proper_setColor {g : Graph} (hEA : EdgeAdj g)
    (hNSL : ∀ e ∈ g.edges, e.1 ≠ e.2) (hP : Proper g) {v c : Nat}
    (hc : c ∉ g.get_neighbor_colors v) : Proper (setColor g v (some c)) := by
  intro e he a b ha hb
  have hedges : (setColor g v (some c)).edges = g.edges := rfl
  rw [hedges] at he
  by_cases h1 : e.1 = v <;> by_cases h2 : e.2 = v
  · exact absurd (h1.trans h2.symm) (hNSL e he)
  · -- e.1 = v: a is the new color c, b an old neighbor color
    rw [h1] at ha
    by_cases hv : v ∈ dictKeys g.nodes
    · rw [nodeColor_setColor_self hv] at ha
      cases ha
      rw [nodeColor_setColor_ne g h2] at hb
      intro hab
      apply hc
      apply mem_get_neighbor_colors.mpr
      refine ⟨e.2, ?_, ?_⟩
      · have := (hEA e he).1
        rwa [h1] at this
      · rw [hb, hab]
    · rw [show nodeColor (setColor g v (some c)) v = none from ?_] at ha
      · cases ha
      · unfold nodeColor setColor
        rw [dictLookup_updateNode, if_pos rfl,
          (dictLookup_eq_none _ _).mpr (by simpa using hv)]
        rfl
  · -- e.2 = v: symmetric
    rw [h2] at hb
    by_cases hv : v ∈ dictKeys g.nodes
    · rw [nodeColor_setColor_self hv] at hb
      cases hb
      rw [nodeColor_setColor_ne g h1] at ha
      intro hab
      apply hc
      apply mem_get_neighbor_colors.mpr
      refine ⟨e.1, ?_, ?_⟩
      · have := (hEA e he).2
        rwa [h2] at this
      · rw [ha, hab]
    · rw [show nodeColor (setColor g v (some c)) v = none from ?_] at hb
      · cases hb
      · unfold nodeColor setColor
        rw [dictLookup_updateNode, if_pos rfl,
          (dictLookup_eq_none _ _).mpr (by simpa using hv)]
        rfl
  · rw [nodeColor_setColor_ne g h1] at ha
    rw [nodeColor_setColor_ne g h2] at hb
    exact hP e he a b ha hb

/-! ## Frame and properness lemmas for the coloring passes -/

theorem setColor_edges (g : Graph) (k : Nat) (c : Option Nat) :
    (setColor g k c).edges = g.edges := rfl

theorem setColor_adjacency (g : Graph) (k : Nat) (c : Option Nat) :
    (setColor g k c).adjacency = g.adjacency := rfl

theorem colorNodesInOrder_edges (order : List Nat) :
    ∀ g : Graph, (colorNodesInOrder g order).edges = g.edges := by
  induction order with
  | nil => intro g; rfl
  | cons x xs ih =>
    intro g
    unfold colorNodesInOrder at ih ⊢
    rw [List.foldl_cons]
    exact ih _

theorem colorNodesInOrder_adjacency (order : List Nat) :
    ∀ g : Graph, (colorNodesInOrder g order).adjacency = g.adjacency := by
  induction order with
  | nil => intro g; rfl
  | cons x xs ih =>
    intro g
    unfold colorNodesInOrder at ih ⊢
    rw [List.foldl_cons]
    exact ih _

theorem colorNodesInOrder_keys (order : List Nat) :
    ∀ g : Graph, dictKeys (colorNodesInOrder g order).nodes = dictKeys g.nodes := by
  induction order with
  | nil => intro g; rfl
  | cons x xs ih =>
    intro g
    unfold colorNodesInOrder at ih ⊢
    rw [List.foldl_cons]
    rw [ih _]
    exact setColor_keys _ _ _

theorem proper_colorNodesInOrder (order : List Nat) :
    ∀ g : Graph, EdgeAdj g → (∀ e ∈ g.edges, e.1 ≠ e.2) → Proper g →
      Proper (colorNodesInOrder g order) := by
  induction order with
  | nil => intro g _ _ hP; exact hP
  | cons x xs ih =>
    intro g hEA hNSL hP
    unfold colorNodesInOrder at ih ⊢
    rw [List.foldl_cons]
    have hEA' : EdgeAdj (setColor g x
        (some (get_smallest_available_color (g.get_neighbor_colors x)))) := hEA
    have hNSL' : ∀ e ∈ (setColor g x
        (some (get_smallest_available_color (g.get_neighbor_colors x)))).edges,
        e.1 ≠ e.2 := hNSL
    exact ih _ hEA' hNSL'
      (proper_setColor hEA hNSL hP (gsac_not_mem (g.get_neighbor_colors x)))

/-- The shared shape of the two saturation-update folds of DSATUR. -/
theorem satFold_frame (unc : List Nat) (val : Graph → Nat → Nat) (l : List Nat) :
    ∀ h : Graph,
      (l.foldl (fun h n => if n ∈ unc then setSat h n (val h n) else h) h).edges = h.edges ∧
      (l.foldl (fun h n => if n ∈ unc then setSat h n (val h n) else h) h).adjacency
        = h.adjacency ∧
      colorMap (l.foldl (fun h n => if n ∈ unc then setSat h n (val h n) else h) h)
        = colorMap h := by
  induction l with
  | nil => intro h; exact ⟨rfl, rfl, rfl⟩
  | cons x xs ih =>
    intro h
    by_cases hx : x ∈ unc
    · rw [List.foldl_cons, if_pos hx]
      rcases ih (setSat h x (val h x)) with ⟨h1, h2, h3⟩
      exact ⟨h1, h2, h3.trans (colorMap_setSat h x (val h x))⟩
    · rw [List.foldl_cons, if_neg hx]
      exact ih h

theorem dsaturSatUpdate_frame (g1 : Graph) (selected : Nat) (unc1 : List Nat) :
    (dsaturSatUpdate g1 selected unc1).edges = g1.edges ∧
    (dsaturSatUpdate g1 selected unc1).adjacency = g1.adjacency ∧
    colorMap (dsaturSatUpdate g1 selected unc1) = colorMap g1 :=
  satFold_frame unc1 (fun h n => (h.get_neighbor_colors n).length) (adjGet g1 selected) g1

theorem dsaturInitSat_frame (g1 : Graph) (first_node : Nat) (unc1 : List Nat) :
    (dsaturInitSat g1 first_node unc1).edges = g1.edges ∧
    (dsaturInitSat g1 first_node unc1).adjacency = g1.adjacency ∧
    colorMap (dsaturInitSat g1 first_node unc1) = colorMap g1 :=
  satFold_frame unc1 (fun h n => satOf h n + 1) (adjGet g1 first_node) g1

theorem dsaturLoop_zero (g : Graph) (unc : List Nat) : dsaturLoop 0 g unc = g := rfl

theorem dsaturLoop_succ_nil (fuel : Nat) (g : Graph) : dsaturLoop (fuel + 1) g [] = g := by
  rw [dsaturLoop]
  rw [if_pos rfl]

theorem dsaturLoop_succ_cons (fuel : Nat) (g : Graph) {unc : List Nat} (huc : unc ≠ []) :
    dsaturLoop (fuel + 1) g unc
      = dsaturLoop fuel
          (dsaturSatUpdate (dsaturAssign g (dsatur_select g unc)) (dsatur_select g unc)
            (unc.erase (dsatur_select g unc)))
          (unc.erase (dsatur_select g unc)) := by
  rw [dsaturLoop]
  rw [if_neg huc]

/-- `EdgeAdj` and the no-self-loop property transport along equal
edge lists and adjacency indices. -/
theorem edgeAdj_of_eq {g g' : Graph} (he : g'.edges = g.edges)
    (ha : g'.adjacency = g.adjacency) (h : EdgeAdj g) : EdgeAdj g' := by
  intro e hme
  rw [he] at hme
  have := h e hme
  unfold adjGet
  rw [ha]
  exact this

theorem dsaturLoop_proper :
    ∀ (fuel : Nat) (unc : List Nat) (g : Graph),
      EdgeAdj g → (∀ e ∈ g.edges, e.1 ≠ e.2) → Proper g →
      Proper (dsaturLoop fuel g unc) ∧ (dsaturLoop fuel g unc).edges = g.edges := by
  intro fuel
  induction fuel with
  | zero =>
    intro unc g _ _ hP
    rw [dsaturLoop_zero]
    exact ⟨hP, rfl⟩
  | succ n ih =>
    intro unc g hEA hNSL hP
    by_cases huc : unc = []
    · subst huc
      rw [dsaturLoop_succ_nil]
      exact ⟨hP, rfl⟩
    · rw [dsaturLoop_succ_cons n g huc]
      rcases dsaturSatUpdate_frame (dsaturAssign g (dsatur_select g unc))
        (dsatur_select g unc) (unc.erase (dsatur_select g unc)) with ⟨hfe, hfa, hfc⟩
      have hae : (dsaturAssign g (dsatur_select g unc)).edges = g.edges := rfl
      have haa : (dsaturAssign g (dsatur_select g unc)).adjacency = g.adjacency := rfl
      have hEA2 : EdgeAdj (dsaturSatUpdate (dsaturAssign g (dsatur_select g unc))
          (dsatur_select g unc) (unc.erase (dsatur_select g unc))) :=
        edgeAdj_of_eq (by rw [hfe, hae]) (by rw [hfa, haa]) hEA
      have hNSL2 : ∀ e ∈ (dsaturSatUpdate (dsaturAssign g (dsatur_select g unc))
          (dsatur_select g unc) (unc.erase (dsatur_select g unc))).edges, e.1 ≠ e.2 := by
        intro e hme
        rw [hfe, hae] at hme
        exact hNSL e hme
      have hP1 : Proper (dsaturAssign g (dsatur_select g unc)) :=
        proper_setColor hEA hNSL hP (gsac_not_mem _)
      have hP2 : Proper (dsaturSatUpdate (dsaturAssign g (dsatur_select g unc))
          (dsatur_select g unc) (unc.erase (dsatur_select g unc))) :=
        proper_of_colorMap hfc hfe hP1
      rcases ih (unc.erase (dsatur_select g unc)) _ hEA2 hNSL2 hP2 with ⟨hq1, hq2⟩
      exact ⟨hq1, by rw [hq2, hfe, hae]⟩

/-! ## `GraphWF` accessors -/

theorem GraphWF.nodesNodup {g : Graph} (h : GraphWF g) : (dictKeys g.nodes).Nodup := h.1

theorem GraphWF.adjKeysNodup {g : Graph} (h : GraphWF g) : (dictKeys g.adjacency).Nodup :=
  h.2.1

theorem GraphWF.adjValsNodup {g : Graph} (h : GraphWF g) : ∀ p ∈ g.adjacency, p.2.Nodup :=
  h.2.2.1

theorem GraphWF.edgeEndpoints {g : Graph} (h : GraphWF g) :
    ∀ e ∈ g.edges, e.1 ∈ dictKeys g.nodes ∧ e.2 ∈ dictKeys g.nodes ∧ e.1 ≠ e.2 :=
  h.2.2.2.1

theorem GraphWF.edgePairwise {g : Graph} (h : GraphWF g) :
    g.edges.Pairwise (fun e f => ¬ sameEdge e f) :=
  h.2.2.2.2.1

theorem GraphWF.adjToEdges {g : Graph} (h : GraphWF g) :
    ∀ p ∈ g.adjacency, ∀ v ∈ p.2, (p.1, v) ∈ g.edges ∨ (v, p.1) ∈ g.edges :=
  h.2.2.2.2.2.1

theorem GraphWF.edgeAdj {g : Graph} (h : GraphWF g) : EdgeAdj g :=
  h.2.2.2.2.2.2.1

theorem GraphWF.nodeFields {g : Graph} (h : GraphWF g) :
    ∀ p ∈ g.nodes, p.2.id = p.1 ∧ p.2.degree = (adjGet g p.1).length ∧
      p.2.neighbors = adjGet g p.1 :=
  h.2.2.2.2.2.2.2

theorem GraphWF.noSelfLoop {g : Graph} (h : GraphWF g) : ∀ e ∈ g.edges, e.1 ≠ e.2 :=
  fun e he => (h.edgeEndpoints e he).2.2

/-- Members of any adjacency set are adjacency-set members in the reverse
direction as well (undirected symmetry). -/
theorem GraphWF.adjSymm {g : Graph} (h : GraphWF g) {u v : Nat} (hv : v ∈ adjGet g u) :
    u ∈ adjGet g v := by
  unfold adjGet at hv
  rcases hl : dictLookup g.adjacency u with _ | l
  · rw [hl] at hv
    cases hv
  · rw [hl] at hv
    have hmem := dictLookup_mem hl
    rcases h.adjToEdges (u, l) hmem v hv with he | he
    · exact (h.edgeAdj _ he).2
    · exact (h.edgeAdj _ he).1

/-! ## Conflicts after each heuristic -/

theorem not_mem_neighbor_colors_reset (g : Graph) (v c : Nat) :
    c ∉ g.reset_colors.get_neighbor_colors v := by
  intro h
  rcases mem_get_neighbor_colors.mp h with ⟨u, _, hc⟩
  rw [nodeColor_reset_colors] at hc
  cases hc

theorem greedy_coloring_proper {g : Graph} (hEA : EdgeAdj g)
    (hNSL : ∀ e ∈ g.edges, e.1 ≠ e.2) : Proper (greedy_coloring g) := by
  unfold greedy_coloring
  apply proper_colorNodesInOrder
  · exact edgeAdj_of_eq rfl rfl hEA
  · exact hNSL
  · exact proper_reset g

theorem welsh_powell_proper {g : Graph} (hEA : EdgeAdj g)
    (hNSL : ∀ e ∈ g.edges, e.1 ≠ e.2) : Proper (welsh_powell g) := by
  unfold welsh_powell
  apply proper_colorNodesInOrder
  · exact edgeAdj_of_eq rfl rfl hEA
  · exact hNSL
  · exact proper_reset g

theorem greedy_coloring_edges (g : Graph) : (greedy_coloring g).edges = g.edges := by
  unfold greedy_coloring
  rw [colorNodesInOrder_edges]
  rfl

theorem welsh_powell_edges (g : Graph) : (welsh_powell g).edges = g.edges := by
  unfold welsh_powell
  rw [colorNodesInOrder_edges]
  rfl

theorem dsatur_eq_of_nil {g : Graph} (h : sortAsc (dictKeys g.reset_colors.nodes) = []) :
    dsatur g = g.reset_colors := by
  unfold dsatur
  simp only [h]

theorem dsatur_eq_of_cons {g : Graph} {x : Nat} {xs : List Nat}
    (h : sortAsc (dictKeys g.reset_colors.nodes) = x :: xs) :
    dsatur g
      = dsaturLoop ((x :: xs).erase (dsatur_first_choice g.reset_colors (x :: xs))).length
          (dsaturInitSat
            (setColor g.reset_colors (dsatur_first_choice g.reset_colors (x :: xs)) (some 0))
            (dsatur_first_choice g.reset_colors (x :: xs))
            ((x :: xs).erase (dsatur_first_choice g.reset_colors (x :: xs))))
          ((x :: xs).erase (dsatur_first_choice g.reset_colors (x :: xs))) := by
  unfold dsatur
  simp only [h]

theorem dsatur_proper {g : Graph} (hEA : EdgeAdj g)
    (hNSL : ∀ e ∈ g.edges, e.1 ≠ e.2) :
    Proper (dsatur g) ∧ (dsatur g).edges = g.edges := by
  rcases hu : sortAsc (dictKeys g.reset_colors.nodes) with _ | ⟨x, xs⟩
  · rw [dsatur_eq_of_nil hu]
    exact ⟨proper_reset g, rfl⟩
  · rw [dsatur_eq_of_cons hu]
    have hEA0 : EdgeAdj g.reset_colors := edgeAdj_of_eq rfl rfl hEA
    have hNSL0 : ∀ e ∈ g.reset_colors.edges, e.1 ≠ e.2 := hNSL
    have hP1 : Proper (setColor g.reset_colors
        (dsatur_first_choice g.reset_colors (x :: xs)) (some 0)) :=
      proper_setColor hEA0 hNSL0 (proper_reset g)
        (not_mem_neighbor_colors_reset g _ 0)
    rcases dsaturInitSat_frame
        (setColor g.reset_colors (dsatur_first_choice g.reset_colors (x :: xs)) (some 0))
        (dsatur_first_choice g.reset_colors (x :: xs))
        ((x :: xs).erase (dsatur_first_choice g.reset_colors (x :: xs)))
      with ⟨hfe, hfa, hfc⟩
    have hP2 : Proper (dsaturInitSat
        (setColor g.reset_colors (dsatur_first_choice g.reset_colors (x :: xs)) (some 0))
        (dsatur_first_choice g.reset_colors (x :: xs))
        ((x :: xs).erase (dsatur_first_choice g.reset_colors (x :: xs)))) :=
      proper_of_colorMap hfc hfe hP1
    have hEA2 : EdgeAdj (dsaturInitSat
        (setColor g.reset_colors (dsatur_first_choice g.reset_colors (x :: xs)) (some 0))
        (dsatur_first_choice g.reset_colors (x :: xs))
        ((x :: xs).erase (dsatur_first_choice g.reset_colors (x :: xs)))) :=
      edgeAdj_of_eq hfe hfa hEA0
    have hNSL2 : ∀ e ∈ (dsaturInitSat
        (setColor g.reset_colors (dsatur_first_choice g.reset_colors (x :: xs)) (some 0))
        (dsatur_first_choice g.reset_colors (x :: xs))
        ((x :: xs).erase (dsatur_first_choice g.reset_colors (x :: xs)))).edges,
        e.1 ≠ e.2 := by
      intro e hme
      rw [hfe] at hme
      exact hNSL e hme
    rcases dsaturLoop_proper
        ((x :: xs).erase (dsatur_first_choice g.reset_colors (x :: xs))).length _ _
        hEA2 hNSL2 hP2 with ⟨hq1, hq2⟩
    refine ⟨hq1, ?_⟩
    rw [hq2, hfe]
    rfl

/-! ## Backtracking: failure restores the graph, success is proper -/

theorem setColor_setColor (g : Graph) (k : Nat) (c c' : Option Nat) :
    setColor (setColor g k c) k c' = setColor g k c' := by
  unfold setColor updateNode
  congr 1
  rw [List.map_map]
  apply List.map_congr_left
  intro p _
  by_cases hp : p.1 = k
  · simp [hp]
  · simp [hp]

theorem setColor_none_id {g : Graph} (hnd : (dictKeys g.nodes).Nodup) {k : Nat}
    (h : nodeColor g k = none) : setColor g k none = g := by
  unfold setColor updateNode
  have hnodes : g.nodes.map
      (fun p => if p.1 = k then (p.1, { p.2 with color := none }) else p) = g.nodes := by
    have hcongr : ∀ p ∈ g.nodes,
        (if p.1 = k then (p.1, { p.2 with color := none }) else p) = id p := by
      intro p hp
      by_cases hpk : p.1 = k
      · rw [if_pos hpk]
        have hl : dictLookup g.nodes p.1 = some p.2 := dictLookup_of_mem_nodup hnd hp
        rw [hpk] at hl
        unfold nodeColor at h
        rw [hl] at h
        have hco : p.2.color = none := by simpa using h
        have h2 : ({ p.2 with color := none } : NodeData) = p.2 := by rw [← hco]
        rw [h2]
        rfl
      · rw [if_neg hpk]
        rfl
    rw [List.map_congr_left hcongr, List.map_id]
  rw [hnodes]

/-! Equation lemmas for the backtracking search. -/

theorem backtrack_nil (k : Nat) (g : Graph) : backtrack k g [] = (g, true) := rfl

theorem backtrack_cons (k : Nat) (g : Graph) (node_id : Nat) (rest : List Nat) :
    backtrack k g (node_id :: rest)
      = tryColors node_id (fun h => backtrack k h rest)
          (g.get_neighbor_colors node_id) (List.range k) g := by
  rw [backtrack]

theorem tryColors_nil (node_id : Nat) (bt_rest : Graph → Graph × Bool)
    (ncolors : List Nat) (g : Graph) :
    tryColors node_id bt_rest ncolors [] g = (g, false) := rfl

theorem tryColors_skip (node_id : Nat) (bt_rest : Graph → Graph × Bool)
    {ncolors cs : List Nat} {c : Nat} (g : Graph) (h : c ∈ ncolors) :
    tryColors node_id bt_rest ncolors (c :: cs) g
      = tryColors node_id bt_rest ncolors cs g := by
  rw [tryColors, if_pos h]

theorem tryColors_fail (node_id : Nat) (bt_rest : Graph → Graph × Bool)
    {ncolors cs : List Nat} {c : Nat} (g : Graph) (h : c ∉ ncolors)
    (hr : (bt_rest (setColor g node_id (some c))).2 = false) :
    tryColors node_id bt_rest ncolors (c :: cs) g
      = tryColors node_id bt_rest ncolors cs
          (setColor (bt_rest (setColor g node_id (some c))).1 node_id none) := by
  rw [tryColors, if_neg h]
  simp only [hr, Bool.false_eq_true, if_false]

theorem tryColors_succeed (node_id : Nat) (bt_rest : Graph → Graph × Bool)
    {ncolors cs : List Nat} {c : Nat} (g : Graph) (h : c ∉ ncolors)
    (hr : (bt_rest (setColor g node_id (some c))).2 = true) :
    tryColors node_id bt_rest ncolors (c :: cs) g
      = bt_rest (setColor g node_id (some c)) := by
  rw [tryColors, if_neg h]
  simp only [hr, if_true]

/-- Helper for `backtrack_restore`: the color loop restores the graph on
failure, for any recursive continuation `bt_rest` that itself restores on
failure (relative to an invariant `Inv` preserved by coloring the current
node). -/
theorem tryColors_restore (node_id : Nat) (bt_rest : Graph → Graph × Bool)
    (ncolors : List Nat) (Inv : Graph → Prop)
    (hbt : ∀ h : Graph, Inv h → (bt_rest h).2 = false → (bt_rest h).1 = h)
    (hInv_set : ∀ (h : Graph) (c : Nat), Inv h → Inv (setColor h node_id (some c))) :
    ∀ (cs : List Nat) (g : Graph), Inv g → (dictKeys g.nodes).Nodup →
      nodeColor g node_id = none →
      (tryColors node_id bt_rest ncolors cs g).2 = false →
      (tryColors node_id bt_rest ncolors cs g).1 = g := by
  intro cs
  induction cs with
  | nil =>
    intro g _ _ _ _
    rw [tryColors_nil]
  | cons c cs ihc =>
    intro g hInv hknd hncol hf
    by_cases hc : c ∈ ncolors
    · rw [tryColors_skip node_id bt_rest g hc] at hf ⊢
      exact ihc g hInv hknd hncol hf
    · rcases hr2 : (bt_rest (setColor g node_id (some c))).2 with _ | _
      · -- deeper call failed: it restored the graph; undo the color and continue
        rw [tryColors_fail node_id bt_rest g hc hr2] at hf ⊢
        have hrest := hbt (setColor g node_id (some c)) (hInv_set g c hInv) hr2
        rw [hrest, setColor_setColor, setColor_none_id hknd hncol] at hf ⊢
        exact ihc g hInv hknd hncol hf
      · -- deeper call succeeded: the flag would be true, contradicting failure
        rw [tryColors_succeed node_id bt_rest g hc hr2] at hf
        rw [hf] at hr2
        cases hr2

theorem backtrack_restore (k : Nat) : ∀ (rest : List Nat) (g : Graph),
    (dictKeys g.nodes).Nodup → rest.Nodup →
    (∀ x ∈ rest, nodeColor g x = none) →
    (backtrack k g rest).2 = false → (backtrack k g rest).1 = g := by
  intro rest
  induction rest with
  | nil =>
    intro g _ _ _ hf
    rw [backtrack_nil] at hf
    simp at hf
  | cons node_id rest' ih =>
    intro g hknd hrnd hnone hf
    rw [backtrack_cons] at hf ⊢
    have hnid : node_id ∉ rest' := (List.nodup_cons.mp hrnd).1
    exact tryColors_restore node_id (fun h => backtrack k h rest')
      (g.get_neighbor_colors node_id)
      (fun h => (dictKeys h.nodes).Nodup ∧ ∀ x ∈ rest', nodeColor h x = none)
      (fun h hInv hflag => ih h hInv.1 (List.nodup_cons.mp hrnd).2 hInv.2 hflag)
      (fun h c hInv => ⟨by rw [setColor_keys]; exact hInv.1,
        fun x hx => by
          rw [nodeColor_setColor_ne h (fun he : x = node_id => hnid (he ▸ hx))]
          exact hInv.2 x hx⟩)
      (List.range k) g
      ⟨hknd, fun x hx => hnone x (List.mem_cons_of_mem _ hx)⟩ hknd
      (hnone node_id (List.mem_cons_self _ _)) hf

/-- Helper: on success the color loop yields a proper coloring, for any
recursive continuation that restores on failure and is proper on
success. -/
theorem tryColors_proper (node_id : Nat) (bt_rest : Graph → Graph × Bool)
    (Inv : Graph → Prop)
    (hbt_restore : ∀ h : Graph, Inv h → (bt_rest h).2 = false → (bt_rest h).1 = h)
    (hbt_proper : ∀ h : Graph, Inv h → Proper h → (bt_rest h).2 = true →
      Proper (bt_rest h).1)
    (hInv_set : ∀ (h : Graph) (c : Nat), Inv h → Inv (setColor h node_id (some c)))
    (hknd_of : ∀ h : Graph, Inv h → (dictKeys h.nodes).Nodup)
    (hEA_of : ∀ h : Graph, Inv h → EdgeAdj h)
    (hNSL_of : ∀ h : Graph, Inv h → ∀ e ∈ h.edges, e.1 ≠ e.2) :
    ∀ (cs : List Nat) (g : Graph), Inv g → nodeColor g node_id = none → Proper g →
      (tryColors node_id bt_rest (g.get_neighbor_colors node_id) cs g).2 = true →
      Proper (tryColors node_id bt_rest (g.get_neighbor_colors node_id) cs g).1 := by
  intro cs
  induction cs with
  | nil =>
    intro g _ _ _ hf
    rw [tryColors_nil] at hf
    simp at hf
  | cons c cs ihc =>
    intro g hInv hncol hP hf
    by_cases hc : c ∈ g.get_neighbor_colors node_id
    · rw [tryColors_skip node_id bt_rest g hc] at hf ⊢
      exact ihc g hInv hncol hP hf
    · rcases hr2 : (bt_rest (setColor g node_id (some c))).2 with _ | _
      · rw [tryColors_fail node_id bt_rest g hc hr2] at hf ⊢
        have hrest := hbt_restore (setColor g node_id (some c)) (hInv_set g c hInv) hr2
        rw [hrest, setColor_setColor, setColor_none_id (hknd_of g hInv) hncol] at hf ⊢
        exact ihc g hInv hncol hP hf
      · rw [tryColors_succeed node_id bt_rest g hc hr2] at hf ⊢
        exact hbt_proper (setColor g node_id (some c)) (hInv_set g c hInv)
          (proper_setColor (hEA_of g hInv) (hNSL_of g hInv) hP hc) hr2

theorem backtrack_proper (k : Nat) : ∀ (rest : List Nat) (g : Graph),
    (dictKeys g.nodes).Nodup → rest.Nodup →
    (∀ x ∈ rest, nodeColor g x = none) → EdgeAdj g →
    (∀ e ∈ g.edges, e.1 ≠ e.2) → Proper g →
    (backtrack k g rest).2 = true → Proper (backtrack k g rest).1 := by
  intro rest
  induction rest with
  | nil =>
    intro g _ _ _ _ _ hP _
    rw [backtrack_nil]
    exact hP
  | cons node_id rest' ih =>
    intro g hknd hrnd hnone hEA hNSL hP hf
    rw [backtrack_cons] at hf ⊢
    have hnid : node_id ∉ rest' := (List.nodup_cons.mp hrnd).1
    exact tryColors_proper node_id (fun h => backtrack k h rest')
      (fun h => (dictKeys h.nodes).Nodup ∧ (∀ x ∈ rest', nodeColor h x = none) ∧
        EdgeAdj h ∧ ∀ e ∈ h.edges, e.1 ≠ e.2)
      (fun h hInv hflag => backtrack_restore k rest' h hInv.1
        (List.nodup_cons.mp hrnd).2 hInv.2.1 hflag)
      (fun h hInv hPh hflag => ih h hInv.1 (List.nodup_cons.mp hrnd).2 hInv.2.1
        hInv.2.2.1 hInv.2.2.2 hPh hflag)
      (fun h c hInv => ⟨by rw [setColor_keys]; exact hInv.1,
        fun x hx => by
          rw [nodeColor_setColor_ne h (fun he : x = node_id => hnid (he ▸ hx))]
          exact hInv.2.1 x hx,
        hInv.2.2.1, hInv.2.2.2⟩)
      (fun h hInv => hInv.1)
      (fun h hInv => hInv.2.2.1)
      (fun h hInv => hInv.2.2.2)
      (List.range k) g
      ⟨hknd, fun x hx => hnone x (List.mem_cons_of_mem _ hx), hEA, hNSL⟩
      (hnone node_id (List.mem_cons_self _ _)) hP hf

theorem backtracking_run_proper {g : Graph} (hknd : (dictKeys g.nodes).Nodup)
    (hEA : EdgeAdj g) (hNSL : ∀ e ∈ g.edges, e.1 ≠ e.2) (mc : Option Nat) :
    (backtracking_run g mc).2 = true → Proper (backtracking_run g mc).1 := by
  intro hf
  unfold backtracking_run at hf ⊢
  have hknd0 : (dictKeys g.reset_colors.nodes).Nodup := by
    rw [reset_colors_keys]
    exact hknd
  exact backtrack_proper _ _ _ hknd0 hknd0 (fun x _ => nodeColor_reset_colors g x)
    (edgeAdj_of_eq rfl rfl hEA) hNSL (proper_reset g) hf

theorem backtracking_run_restore {g : Graph} (hknd : (dictKeys g.nodes).Nodup)
    (mc : Option Nat) :
    (backtracking_run g mc).2 = false → (backtracking_run g mc).1 = g.reset_colors := by
  intro hf
  unfold backtracking_run at hf ⊢
  have hknd0 : (dictKeys g.reset_colors.nodes).Nodup := by
    rw [reset_colors_keys]
    exact hknd
  exact backtrack_restore _ _ _ hknd0 hknd0 (fun x _ => nodeColor_reset_colors g x) hf

theorem reset_colors_all_none (g : Graph) : ∀ p ∈ g.reset_colors.nodes, p.2.color = none := by
  intro p hp
  unfold Graph.reset_colors at hp
  rcases List.mem_map.mp hp with ⟨q, _, hq⟩
  rw [← hq]

/-! ## Spec-side statistics definitions (for the refinement claim C7) -/

/-- Spec §4.6 / §4.1: the number of distinct non-null colors, phrased as a
finite-set cardinality. -/
def specChromaticNumber (g : Graph) : Nat :=
  (g.nodes.filterMap (fun p => p.2.color)).toFinset.card

/-- Spec §4.6: conflicts count only edges whose two endpoints are both
colored and share the same color. -/
def specConflicts (g : Graph) : Nat :=
  g.edges.countP (fun e => (nodeColor g e.1).isSome && (nodeColor g e.1 == nodeColor g e.2))

theorem get_chromatic_number_eq_spec (g : Graph) :
    g.get_chromatic_number = specChromaticNumber g := by
  unfold Graph.get_chromatic_number specChromaticNumber
  rw [List.card_toFinset]

theorem count_conflicts_eq_spec (g : Graph) :
    g.count_conflicts = specConflicts g := by
  unfold Graph.count_conflicts specConflicts
  apply List.countP_congr
  intro e _
  rcases h1 : nodeColor g e.1 with _ | a
  · simp [h1]
  · rcases h2 : nodeColor g e.2 with _ | b
    · simp [h1, h2]
    · simp [h1, h2]

/-! ## Sample graphs for the concrete witnesses -/

/-- The 3-node path `0 - 1 - 2`. -/
def gPath3 : Graph :=
  buildGraph [Op.addNode 0, Op.addNode 1, Op.addNode 2, Op.addEdge 0 1, Op.addEdge 1 2]

/-- The triangle `K_3`. -/
def gK3 : Graph :=
  buildGraph [Op.addNode 0, Op.addNode 1, Op.addNode 2,
    Op.addEdge 0 1, Op.addEdge 0 2, Op.addEdge 1 2]

/-- A single isolated node. -/
def gSingle : Graph := buildGraph [Op.addNode 0]

/-! ## The claims -/

/-- Claim C1: for every well-formed graph, a completed run of any of the
four algorithms (greedy, Welsh-Powell, DSATUR, or a backtracking run that
returns success) leaves `count_conflicts()` at 0: no edge has two
endpoints with equal colors. -/
theorem C1_completed_runs_conflict_free (g : Graph) (hwf : GraphWF g) :
    (greedy_coloring g).count_conflicts = 0 ∧
    (welsh_powell g).count_conflicts = 0 ∧
    (dsatur g).count_conflicts = 0 ∧
    ∀ mc : Option Nat, (backtracking_run g mc).2 = true →
      (backtracking_run g mc).1.count_conflicts = 0 := by
  have hEA := hwf.edgeAdj
  have hNSL := hwf.noSelfLoop
  refine ⟨?_, ?_, ?_, ?_⟩
  · exact count_conflicts_eq_zero (greedy_coloring_proper hEA hNSL)
  · exact count_conflicts_eq_zero (welsh_powell_proper hEA hNSL)
  · exact count_conflicts_eq_zero (dsatur_proper hEA hNSL).1
  · intro mc hf
    exact count_conflicts_eq_zero (backtracking_run_proper hwf.nodesNodup hEA hNSL mc hf)

/-- Witness for C1 on the concrete path graph `0 - 1 - 2`. -/
theorem C1_completed_runs_conflict_free_witness :
    (greedy_coloring gPath3).count_conflicts = 0 ∧
    (welsh_powell gPath3).count_conflicts = 0 ∧
    (dsatur gPath3).count_conflicts = 0 ∧
    ((backtracking_run gPath3 (some 2)).2 = true →
      (backtracking_run gPath3 (some 2)).1.count_conflicts = 0) := by
  have h := C1_completed_runs_conflict_free gPath3 (by decide)
  exact ⟨h.1, h.2.1, h.2.2.1, h.2.2.2 (some 2)⟩

/-- Claim C2 (counterexample): pre-assigning color 5 to node 1 and then
running `greedy_coloring` does not leave the pre-assigned color in place —
the algorithms reset all colors first, so node 1 ends with color 1. -/
theorem C2_precolor_not_preserved_counterexample :
    nodeColor (greedy_coloring (setColor gPath3 1 (some 5))) 1 ≠ some 5 := by
  decide

theorem reset_colors_setColor (g : Graph) (id : Nat) (c : Option Nat) :
    (setColor g id c).reset_colors = g.reset_colors := by
  unfold Graph.reset_colors setColor updateNode
  congr 1
  rw [List.map_map]
  apply List.map_congr_left
  intro p _
  by_cases hp : p.1 = id
  · simp [hp]
  · simp [hp]

/-- Claim C2 (amended): each of the four algorithms begins by resetting
every node's color, so a pre-assigned color is discarded rather than kept:
the run's entire outcome is the same as without the pre-assignment. -/
theorem C2_amended_precolor_discarded (g : Graph) (id : Nat) (c : Option Nat) :
    greedy_coloring (setColor g id c) = greedy_coloring g ∧
    welsh_powell (setColor g id c) = welsh_powell g ∧
    dsatur (setColor g id c) = dsatur g ∧
    ∀ mc : Option Nat, backtracking_exact (setColor g id c) mc = backtracking_exact g mc := by
  have hr := reset_colors_setColor g id c
  refine ⟨?_, ?_, ?_, ?_⟩
  · unfold greedy_coloring
    rw [hr]
  · unfold welsh_powell
    rw [hr]
  · unfold dsatur
    rw [hr]
  · intro mc
    unfold backtracking_exact backtracking_run
    rw [hr]

/-- Claim C3: `add_edge(u, v)` raises exactly when `u` or `v` is absent
from `nodes`, and a raising call leaves the graph completely unchanged
(the raise precedes every mutation). -/
theorem C3_add_edge_raises_iff_and_unchanged (g : Graph) (u v : Nat) :
    ((g.add_edge u v).2.isSome ↔ (u ∉ dictKeys g.nodes ∨ v ∉ dictKeys g.nodes)) ∧
    ((g.add_edge u v).2.isSome → (g.add_edge u v).1 = g) := by
  unfold Graph.add_edge
  by_cases h : u ∉ dictKeys g.nodes ∨ v ∉ dictKeys g.nodes
  · rw [if_pos h]
    exact ⟨by simpa using h, fun _ => rfl⟩
  · rw [if_neg h]
    by_cases h2 : u ≠ v ∧ v ∉ adjGet g u
    · rw [if_pos h2]
      constructor
      · simp only [Option.isSome_none, Bool.false_eq_true, false_iff]
        exact h
      · intro hco
        cases hco
    · rw [if_neg h2]
      constructor
      · simp only [Option.isSome_none, Bool.false_eq_true, false_iff]
        exact h
      · intro hco
        cases hco

/-- Witness for C3: adding an edge to the absent node 7 raises and leaves
the path graph unchanged. -/
theorem C3_add_edge_raises_iff_and_unchanged_witness :
    ((gPath3.add_edge 0 7).2.isSome ↔ (0 ∉ dictKeys gPath3.nodes ∨ 7 ∉ dictKeys gPath3.nodes)) ∧
    ((gPath3.add_edge 0 7).2.isSome → (gPath3.add_edge 0 7).1 = gPath3) :=
  C3_add_edge_raises_iff_and_unchanged gPath3 0 7

/-- Claim C5: when the backtracking search fails within the color budget,
`backtracking_exact` returns the error record — a value distinct from any
success/statistics record, not a raised exception — and every node of the
post-state graph is uncolored (the search undid every partial
assignment, leaving the reset state). -/
theorem C5_backtracking_failure_state (g : Graph) (mc : Option Nat)
    (hknd : (dictKeys g.nodes).Nodup)
    (hf : (backtracking_run g mc).2 = false) :
    (backtracking_exact g mc).1 = BTResult.failure "No solution found with given color limit" ∧
    (∀ st : Stats, (backtracking_exact g mc).1 ≠ BTResult.success st) ∧
    ∀ p ∈ (backtracking_exact g mc).2.nodes, p.2.color = none := by
  unfold backtracking_exact
  simp only [hf, Bool.false_eq_true, if_false]
  refine ⟨by trivial, ?_, ?_⟩
  · intro st h
    cases h
  · have hres := backtracking_run_restore hknd mc hf
    rw [hres]
    exact reset_colors_all_none g

/-- Witness for C5: `K_3` admits no 2-coloring, the search reports failure
and leaves all three nodes uncolored. -/
theorem C5_backtracking_failure_state_witness :
    (backtracking_exact gK3 (some 2)).1
        = BTResult.failure "No solution found with given color limit" ∧
    (∀ st : Stats, (backtracking_exact gK3 (some 2)).1 ≠ BTResult.success st) ∧
    ∀ p ∈ (backtracking_exact gK3 (some 2)).2.nodes, p.2.color = none :=
  C5_backtracking_failure_state gK3 (some 2) (by decide) (by decide)

/-- Claim C7: `_compute_stats` is a pure projection of the current graph
state: the chromatic number is the number of distinct non-null colors,
conflicts count only both-colored equal edges, and the efficiency is
`(n − chromatic) / n × 100` for `n > 0` and `0` otherwise. -/
theorem C7_stats_pure_projection (g : Graph) (algorithm : String) :
    compute_stats g algorithm =
      { algorithm := algorithm,
        chromatic_number := specChromaticNumber g,
        conflicts := specConflicts g,
        efficiency := if 0 < g.nodes.length then
          ((g.nodes.length : ℚ) - (specChromaticNumber g : ℚ)) / (g.nodes.length : ℚ) * 100
          else 0,
        nodes := g.nodes.length,
        edges := g.edges.length } := by
  unfold compute_stats
  rw [get_chromatic_number_eq_spec, count_conflicts_eq_spec]

/-- Claim C8 (counterexample): `get_neighbor_colors` on an id with no
adjacency entry mutates the adjacency index — the `defaultdict` inserts an
empty entry for the queried id, so the call is not entirely side-effect
free as claimed. -/
theorem C8_neighbor_colors_side_effect_counterexample :
    (get_neighbor_colors_run gSingle 0).2.adjacency ≠ gSingle.adjacency := by
  decide

/-- Claim C8 (amended): `get_neighbor_colors(id)` returns exactly the set
of colors of `id`'s colored neighbors; it never changes `nodes`, `edges`
or any node field, and the adjacency index is unchanged except that a
lookup-invisible empty entry may be inserted for the queried id (every
adjacency lookup returns the same set before and after). -/
theorem C8_amended_neighbor_colors (g : Graph) (node_id : Nat) :
    (∀ c, c ∈ (get_neighbor_colors_run g node_id).1 ↔
      ∃ u ∈ adjGet g node_id, nodeColor g u = some c) ∧
    (get_neighbor_colors_run g node_id).2.nodes = g.nodes ∧
    (get_neighbor_colors_run g node_id).2.edges = g.edges ∧
    (∀ w, adjGet (get_neighbor_colors_run g node_id).2 w = adjGet g w) := by
  by_cases h : node_id ∈ dictKeys g.adjacency
  · have hrun : get_neighbor_colors_run g node_id = (g.get_neighbor_colors node_id, g) := by
      unfold get_neighbor_colors_run
      rw [if_pos h]
    rw [hrun]
    exact ⟨fun c => mem_get_neighbor_colors, rfl, rfl, fun w => rfl⟩
  · have hrun : get_neighbor_colors_run g node_id
        = (Graph.get_neighbor_colors
            { g with adjacency := g.adjacency ++ [(node_id, [])] } node_id,
          { g with adjacency := g.adjacency ++ [(node_id, [])] }) := by
      unfold get_neighbor_colors_run
      rw [if_neg h]
    have hadj : ∀ w, adjGet { g with adjacency := g.adjacency ++ [(node_id, [])] } w
        = adjGet g w := by
      intro w
      unfold adjGet
      by_cases hw : w ∈ dictKeys g.adjacency
      · rw [dictLookup_append_left _ hw]
      · rw [dictLookup_append_right _ hw,
          (dictLookup_eq_none g.adjacency w).mpr hw]
        by_cases hww : node_id = w
        · simp [dictLookup, hww]
        · simp [dictLookup, hww]
    have hnc : Graph.get_neighbor_colors
        { g with adjacency := g.adjacency ++ [(node_id, [])] } node_id
        = g.get_neighbor_colors node_id := by
      rw [get_neighbor_colors_eq_fold, get_neighbor_colors_eq_fold, hadj node_id]
      rfl
    rw [hrun]
    refine ⟨?_, rfl, rfl, hadj⟩
    intro c
    rw [show (Graph.get_neighbor_colors
        { g with adjacency := g.adjacency ++ [(node_id, [])] } node_id,
        ({ g with adjacency := g.adjacency ++ [(node_id, [])] } : Graph)).1
      = Graph.get_neighbor_colors
        { g with adjacency := g.adjacency ++ [(node_id, [])] } node_id from rfl]
    rw [hnc]
    exact mem_get_neighbor_colors

/-! ## Preservation of `GraphWF` by `add_node` and `add_edge` (C6) -/

theorem forall_entries_of_lookup {α : Type} {l : List (Nat × α)} {P : Nat → α → Prop}
    (hnd : (dictKeys l).Nodup)
    (h : ∀ k a, dictLookup l k = some a → P k a) : ∀ p ∈ l, P p.1 p.2 :=
  fun p hp => h p.1 p.2 (dictLookup_of_mem_nodup hnd hp)

theorem lookup_of_forall_entries {α : Type} {l : List (Nat × α)} {P : Nat → α → Prop}
    (h : ∀ p ∈ l, P p.1 p.2) : ∀ k a, dictLookup l k = some a → P k a :=
  fun k a hl => h (k, a) (dictLookup_mem hl)

theorem dictKeys_dictSet_nodup {α : Type} {l : List (Nat × α)} (k : Nat) (v : α)
    (hnd : (dictKeys l).Nodup) : (dictKeys (dictSet l k v)).Nodup := by
  by_cases h : k ∈ dictKeys l
  · rw [dictKeys_dictSet_of_mem v h]
    exact hnd
  · rw [dictKeys_dictSet_of_not_mem v h]
    rw [List.nodup_append]
    refine ⟨hnd, List.nodup_singleton k, ?_⟩
    intro a ha hb
    rw [List.mem_singleton.mp hb] at ha
    exact h ha

/-- The adjacency set of any id is duplicate-free in a well-formed graph. -/
theorem GraphWF.adjGet_nodup {g : Graph} (h : GraphWF g) (w : Nat) :
    (adjGet g w).Nodup := by
  unfold adjGet
  rcases hl : dictLookup g.adjacency w with _ | l
  · exact List.nodup_nil
  · exact h.adjValsNodup (w, l) (dictLookup_mem hl)

/-- Adjacency members point back to edges, in lookup form. -/
theorem GraphWF.adjGet_edges {g : Graph} (h : GraphWF g) {w x : Nat}
    (hx : x ∈ adjGet g w) : (w, x) ∈ g.edges ∨ (x, w) ∈ g.edges := by
  unfold adjGet at hx
  rcases hl : dictLookup g.adjacency w with _ | l
  · rw [hl] at hx
    cases hx
  · rw [hl] at hx
    exact h.adjToEdges (w, l) (dictLookup_mem hl) x hx

theorem GraphWF.adjGet_mem_nodes {g : Graph} (h : GraphWF g) {w x : Nat}
    (hx : x ∈ adjGet g w) : x ∈ dictKeys g.nodes ∧ w ∈ dictKeys g.nodes := by
  rcases h.adjGet_edges hx with he | he
  · exact ⟨(h.edgeEndpoints _ he).2.1, (h.edgeEndpoints _ he).1⟩
  · exact ⟨(h.edgeEndpoints _ he).1, (h.edgeEndpoints _ he).2.1⟩

theorem adjGet_eq_of_adjacency {g g' : Graph} (h : g'.adjacency = g.adjacency) (w : Nat) :
    adjGet g' w = adjGet g w := by
  unfold adjGet
  rw [h]

theorem add_node_mem_eq {g : Graph} {node_id : Nat} (h : node_id ∈ dictKeys g.nodes) :
    g.add_node node_id = g := by
  unfold Graph.add_node
  rw [if_pos h]

theorem add_node_not_mem_spec {g : Graph} {node_id : Nat} (h : node_id ∉ dictKeys g.nodes) :
    (g.add_node node_id).nodes = g.nodes ++
      [(node_id, { id := node_id, color := none, degree := 0,
                   saturation := 0, neighbors := [] })] ∧
    (g.add_node node_id).edges = g.edges ∧
    (g.add_node node_id).adjacency = g.adjacency := by
  unfold Graph.add_node
  rw [if_neg h]
  exact ⟨rfl, rfl, rfl⟩

theorem GraphWF_add_node (g : Graph) (node_id : Nat) (hwf : GraphWF g) :
    GraphWF (g.add_node node_id) := by
  by_cases h : node_id ∈ dictKeys g.nodes
  · rw [add_node_mem_eq h]
    exact hwf
  · rcases add_node_not_mem_spec h with ⟨hn, he, ha⟩
    have hadj : ∀ w, adjGet (g.add_node node_id) w = adjGet g w :=
      adjGet_eq_of_adjacency ha
    have hadjNew : adjGet g node_id = [] := by
      unfold adjGet
      rcases hl : dictLookup g.adjacency node_id with _ | l
      · rfl
      · rcases l with _ | ⟨x, l'⟩
        · rfl
        · exfalso
          have hx : x ∈ adjGet g node_id := by
            unfold adjGet
            rw [hl]
            exact List.mem_cons_self _ _
          exact h (hwf.adjGet_mem_nodes hx).2
    unfold GraphWF
    rw [hn, he, ha]
    simp only [hadj]
    rw [dictKeys_append]
    refine ⟨?_, hwf.adjKeysNodup, hwf.adjValsNodup, ?_, hwf.edgePairwise,
      hwf.adjToEdges, hwf.edgeAdj, ?_⟩
    · rw [List.nodup_append]
      refine ⟨hwf.nodesNodup, List.nodup_singleton node_id, ?_⟩
      intro a ha1 hb
      have : a = node_id := by
        simpa [dictKeys] using hb
      rw [this] at ha1
      exact h ha1
    · intro e he1
      rcases hwf.edgeEndpoints e he1 with ⟨h1, h2, h3⟩
      exact ⟨List.mem_append_left _ h1, List.mem_append_left _ h2, h3⟩
    · intro p hp
      rcases List.mem_append.mp hp with h1 | h1
      · exact hwf.nodeFields p h1
      · rw [List.mem_singleton.mp h1]
        refine ⟨rfl, ?_, ?_⟩
        · rw [hadjNew]
          rfl
        · rw [hadjNew]

theorem add_edge_raise_eq {g : Graph} {u v : Nat}
    (h : u ∉ dictKeys g.nodes ∨ v ∉ dictKeys g.nodes) : (g.add_edge u v).1 = g := by
  unfold Graph.add_edge
  rw [if_pos h]

theorem add_edge_noop_eq {g : Graph} {u v : Nat}
    (h1 : ¬ (u ∉ dictKeys g.nodes ∨ v ∉ dictKeys g.nodes))
    (h2 : ¬ (u ≠ v ∧ v ∉ adjGet g u)) : (g.add_edge u v).1 = g := by
  unfold Graph.add_edge
  rw [if_neg h1, if_neg h2]

/-- The explicit form of the graph produced by the mutating branch of
`add_edge` (the let-chain of the definition, written out). -/
def add_edge_result (g : Graph) (u v : Nat) : Graph :=
  updateNode (updateNode (updateNode (updateNode
    { { g with edges := g.edges ++ [(u, v)] } with
      adjacency := dictSet (dictSet g.adjacency u (setAdd (adjGet g u) v)) v
        (setAdd ((dictLookup (dictSet g.adjacency u (setAdd (adjGet g u) v)) v).getD []) u) }
    u (fun nd => { nd with degree := nd.degree + 1 }))
    v (fun nd => { nd with degree := nd.degree + 1 }))
    u (fun nd => { nd with neighbors := setAdd nd.neighbors v }))
    v (fun nd => { nd with neighbors := setAdd nd.neighbors u })

theorem add_edge_main_eq {g : Graph} {u v : Nat}
    (h1 : ¬ (u ∉ dictKeys g.nodes ∨ v ∉ dictKeys g.nodes))
    (h23 : u ≠ v ∧ v ∉ adjGet g u) :
    (g.add_edge u v).1 = add_edge_result g u v := by
  unfold Graph.add_edge
  rw [if_neg h1, if_pos h23]
  rfl

theorem add_edge_result_edges (g : Graph) (u v : Nat) :
    (add_edge_result g u v).edges = g.edges ++ [(u, v)] := rfl

theorem add_edge_result_adjGet_u {g : Graph} {u v : Nat} (h2 : u ≠ v) :
    adjGet (add_edge_result g u v) u = setAdd (adjGet g u) v := by
  have : adjGet (add_edge_result g u v) u
      = (dictLookup (dictSet (dictSet g.adjacency u (setAdd (adjGet g u) v)) v
          (setAdd ((dictLookup (dictSet g.adjacency u (setAdd (adjGet g u) v)) v).getD []) u))
          u).getD [] := rfl
  rw [this, dictLookup_dictSet_ne _ _ _ _ h2, dictLookup_dictSet_self]
  rfl

theorem add_edge_result_adjGet_v {g : Graph} {u v : Nat} (h2 : u ≠ v) :
    adjGet (add_edge_result g u v) v = setAdd (adjGet g v) u := by
  have : adjGet (add_edge_result g u v) v
      = (dictLookup (dictSet (dictSet g.adjacency u (setAdd (adjGet g u) v)) v
          (setAdd ((dictLookup (dictSet g.adjacency u (setAdd (adjGet g u) v)) v).getD []) u))
          v).getD [] := rfl
  rw [this, dictLookup_dictSet_self]
  rw [dictLookup_dictSet_ne _ _ _ _ (fun he => h2 he.symm)]
  rfl

theorem add_edge_result_adjGet_other {g : Graph} {u v w : Nat}
    (hwu : w ≠ u) (hwv : w ≠ v) :
    adjGet (add_edge_result g u v) w = adjGet g w := by
  have : adjGet (add_edge_result g u v) w
      = (dictLookup (dictSet (dictSet g.adjacency u (setAdd (adjGet g u) v)) v
          (setAdd ((dictLookup (dictSet g.adjacency u (setAdd (adjGet g u) v)) v).getD []) u))
          w).getD [] := rfl
  rw [this, dictLookup_dictSet_ne _ _ _ _ hwv, dictLookup_dictSet_ne _ _ _ _ hwu]
  rfl

theorem add_edge_result_adjGet_superset {g : Graph} {u v : Nat} (h2 : u ≠ v)
    (w x : Nat) (hx : x ∈ adjGet g w) : x ∈ adjGet (add_edge_result g u v) w := by
  by_cases hwu : w = u
  · subst hwu
    rw [add_edge_result_adjGet_u h2]
    exact mem_setAdd.mpr (Or.inl hx)
  · by_cases hwv : w = v
    · subst hwv
      rw [add_edge_result_adjGet_v h2]
      exact mem_setAdd.mpr (Or.inl hx)
    · rw [add_edge_result_adjGet_other hwu hwv]
      exact hx

theorem add_edge_result_adjKeys_nodup {g : Graph} (u v : Nat)
    (hnd : (dictKeys g.adjacency).Nodup) :
    (dictKeys (add_edge_result g u v).adjacency).Nodup := by
  have : (add_edge_result g u v).adjacency
      = dictSet (dictSet g.adjacency u (setAdd (adjGet g u) v)) v
          (setAdd ((dictLookup (dictSet g.adjacency u (setAdd (adjGet g u) v)) v).getD []) u)
      := rfl
  rw [this]
  exact dictKeys_dictSet_nodup _ _ (dictKeys_dictSet_nodup _ _ hnd)

theorem add_edge_result_nodes_keys (g : Graph) (u v : Nat) :
    dictKeys (add_edge_result g u v).nodes = dictKeys g.nodes := by
  unfold add_edge_result
  rw [updateNode_keys, updateNode_keys, updateNode_keys, updateNode_keys]

theorem add_edge_result_lookup_u {g : Graph} {u v : Nat} (h2 : u ≠ v) :
    dictLookup (add_edge_result g u v).nodes u
      = (dictLookup g.nodes u).map (fun nd =>
          { nd with degree := nd.degree + 1, neighbors := setAdd nd.neighbors v }) := by
  unfold add_edge_result
  rw [dictLookup_updateNode, if_neg h2, dictLookup_updateNode, if_pos rfl,
    dictLookup_updateNode, if_neg h2, dictLookup_updateNode, if_pos rfl]
  rcases dictLookup g.nodes u with _ | nd
  · rfl
  · rfl

theorem add_edge_result_lookup_v {g : Graph} {u v : Nat} (h2 : u ≠ v) :
    dictLookup (add_edge_result g u v).nodes v
      = (dictLookup g.nodes v).map (fun nd =>
          { nd with degree := nd.degree + 1, neighbors := setAdd nd.neighbors u }) := by
  unfold add_edge_result
  rw [dictLookup_updateNode, if_pos rfl, dictLookup_updateNode,
    if_neg (fun he => h2 he.symm), dictLookup_updateNode, if_pos rfl,
    dictLookup_updateNode, if_neg (fun he => h2 he.symm)]
  rcases dictLookup g.nodes v with _ | nd
  · rfl
  · rfl

theorem add_edge_result_lookup_other {g : Graph} {u v w : Nat}
    (hwu : w ≠ u) (hwv : w ≠ v) :
    dictLookup (add_edge_result g u v).nodes w = dictLookup g.nodes w := by
  unfold add_edge_result
  rw [dictLookup_updateNode, if_neg hwv, dictLookup_updateNode, if_neg hwu,
    dictLookup_updateNode, if_neg hwv, dictLookup_updateNode, if_neg hwu]

theorem GraphWF_add_edge (g : Graph) (u v : Nat) (hwf : GraphWF g) :
    GraphWF (g.add_edge u v).1 := by
  by_cases h1 : u ∉ dictKeys g.nodes ∨ v ∉ dictKeys g.nodes
  · rw [add_edge_raise_eq h1]
    exact hwf
  · by_cases h23 : u ≠ v ∧ v ∉ adjGet g u
    · rw [add_edge_main_eq h1 h23]
      rcases h23 with ⟨h2, h3⟩
      push_neg at h1
      rcases h1 with ⟨hu, hv⟩
      have h3' : u ∉ adjGet g v := fun hmem => h3 (hwf.adjSymm hmem)
      have hAu : adjGet (add_edge_result g u v) u = adjGet g u ++ [v] := by
        rw [add_edge_result_adjGet_u h2, setAdd_of_not_mem h3]
      have hAv : adjGet (add_edge_result g u v) v = adjGet g v ++ [u] := by
        rw [add_edge_result_adjGet_v h2, setAdd_of_not_mem h3']
      have hKeysN := add_edge_result_nodes_keys g u v
      have hAKeys := add_edge_result_adjKeys_nodup u v hwf.adjKeysNodup
      have hE := add_edge_result_edges g u v
      refine ⟨?_, hAKeys, ?_, ?_, ?_, ?_, ?_, ?_⟩
      · rw [hKeysN]
        exact hwf.nodesNodup
      · -- adjacency values are duplicate-free
        intro p hp
        have hl : dictLookup (add_edge_result g u v).adjacency p.1 = some p.2 :=
          dictLookup_of_mem_nodup hAKeys hp
        have hval : p.2 = adjGet (add_edge_result g u v) p.1 := by
          unfold adjGet
          rw [hl]
          rfl
        rw [hval]
        by_cases hwu : p.1 = u
        · rw [hwu, hAu]
          rw [List.nodup_append]
          refine ⟨hwf.adjGet_nodup u, List.nodup_singleton v, ?_⟩
          intro a ha hb
          rw [List.mem_singleton.mp hb] at ha
          exact h3 ha
        · by_cases hwv : p.1 = v
          · rw [hwv, hAv]
            rw [List.nodup_append]
            refine ⟨hwf.adjGet_nodup v, List.nodup_singleton u, ?_⟩
            intro a ha hb
            rw [List.mem_singleton.mp hb] at ha
            exact h3' ha
          · rw [add_edge_result_adjGet_other hwu hwv]
            exact hwf.adjGet_nodup p.1
      · -- edge endpoints exist and differ
        intro e he
        rw [hE] at he
        rw [hKeysN]
        rcases List.mem_append.mp he with hold | hnew
        · exact hwf.edgeEndpoints e hold
        · rw [List.mem_singleton.mp hnew]
          exact ⟨hu, hv, h2⟩
      · -- no duplicated undirected pair
        rw [hE]
        rw [List.pairwise_append]
        refine ⟨hwf.edgePairwise, List.pairwise_singleton _ _, ?_⟩
        intro e he f hf
        rw [List.mem_singleton.mp hf]
        intro hsame
        rcases hsame with heq | heq
        · rw [heq] at he
          exact h3 (hwf.edgeAdj _ he).1
        · rw [heq] at he
          exact h3 (hwf.edgeAdj _ he).2
      · -- adjacency members come from edges
        intro p hp
        have hl : dictLookup (add_edge_result g u v).adjacency p.1 = some p.2 :=
          dictLookup_of_mem_nodup hAKeys hp
        have hval : p.2 = adjGet (add_edge_result g u v) p.1 := by
          unfold adjGet
          rw [hl]
          rfl
        rw [hval, hE]
        intro x hx
        by_cases hwu : p.1 = u
        · rw [hwu] at hx ⊢
          rw [hAu] at hx
          rcases List.mem_append.mp hx with hold | hxv
          · rcases hwf.adjGet_edges hold with he | he
            · exact Or.inl (List.mem_append_left _ he)
            · exact Or.inr (List.mem_append_left _ he)
          · rw [List.mem_singleton.mp hxv]
            exact Or.inl (List.mem_append_right _ (List.mem_singleton.mpr rfl))
        · by_cases hwv : p.1 = v
          · rw [hwv] at hx ⊢
            rw [hAv] at hx
            rcases List.mem_append.mp hx with hold | hxu
            · rcases hwf.adjGet_edges hold with he | he
              · exact Or.inl (List.mem_append_left _ he)
              · exact Or.inr (List.mem_append_left _ he)
            · rw [List.mem_singleton.mp hxu]
              exact Or.inr (List.mem_append_right _ (List.mem_singleton.mpr rfl))
          · rw [add_edge_result_adjGet_other hwu hwv] at hx
            rcases hwf.adjGet_edges hx with he | he
            · exact Or.inl (List.mem_append_left _ he)
            · exact Or.inr (List.mem_append_left _ he)
      · -- edges are mirrored in the adjacency index
        intro e he
        rw [hE] at he
        rcases List.mem_append.mp he with hold | hnew
        · exact ⟨add_edge_result_adjGet_superset h2 _ _ (hwf.edgeAdj e hold).1,
            add_edge_result_adjGet_superset h2 _ _ (hwf.edgeAdj e hold).2⟩
        · rw [List.mem_singleton.mp hnew]
          constructor
          · rw [hAu]
            exact List.mem_append_right _ (List.mem_singleton.mpr rfl)
          · rw [hAv]
            exact List.mem_append_right _ (List.mem_singleton.mpr rfl)
      · -- per-node id, degree and neighbor agreement
        intro q hq
        have hl : dictLookup (add_edge_result g u v).nodes q.1 = some q.2 := by
          apply dictLookup_of_mem_nodup _ hq
          rw [hKeysN]
          exact hwf.nodesNodup
        obtain ⟨w, nd'⟩ := q
        simp only at hl ⊢
        by_cases hwu : w = u
        · subst hwu
          rw [add_edge_result_lookup_u h2] at hl
          rcases hg : dictLookup g.nodes w with _ | nd
          · rw [hg] at hl
            cases hl
          · rw [hg] at hl
            have hnd' : nd' = { { nd with degree := nd.degree + 1 } with
                neighbors := setAdd nd.neighbors v } := by
              have h' := hl
              simp only [Option.map_some', Option.some.injEq] at h'
              exact h'.symm
            rcases hwf.nodeFields (w, nd) (dictLookup_mem hg) with ⟨hid, hdeg, hnb⟩
            rw [hnd']
            refine ⟨hid, ?_, ?_⟩
            · rw [hAu]
              simp only [List.length_append, List.length_singleton]
              simpa using hdeg
            · rw [hAu]
              simp only
              rw [hnb, setAdd_of_not_mem h3]
        · by_cases hwv : w = v
          · subst hwv
            rw [add_edge_result_lookup_v h2] at hl
            rcases hg : dictLookup g.nodes w with _ | nd
            · rw [hg] at hl
              cases hl
            · rw [hg] at hl
              have hnd' : nd' = { { nd with degree := nd.degree + 1 } with
                  neighbors := setAdd nd.neighbors u } := by
                have h' := hl
                simp only [Option.map_some', Option.some.injEq] at h'
                exact h'.symm
              rcases hwf.nodeFields (w, nd) (dictLookup_mem hg) with ⟨hid, hdeg, hnb⟩
              rw [hnd']
              refine ⟨hid, ?_, ?_⟩
              · rw [hAv]
                simp only [List.length_append, List.length_singleton]
                simpa using hdeg
              · rw [hAv]
                simp only
                rw [hnb, setAdd_of_not_mem h3']
          · rw [add_edge_result_lookup_other hwu hwv] at hl
            rcases hwf.nodeFields (w, nd') (dictLookup_mem hl) with ⟨hid, hdeg, hnb⟩
            rw [add_edge_result_adjGet_other hwu hwv]
            exact ⟨hid, hdeg, hnb⟩
    · rw [add_edge_noop_eq h1 h23]
      exact hwf

theorem GraphWF_empty : GraphWF Graph.empty := by
  decide

theorem GraphWF_applyOp (g : Graph) (op : Op) (hwf : GraphWF g) :
    GraphWF (applyOp g op) := by
  cases op with
  | addNode i => exact GraphWF_add_node g i hwf
  | addEdge u v => exact GraphWF_add_edge g u v hwf

theorem GraphWF_foldl (ops : List Op) :
    ∀ g : Graph, GraphWF g → GraphWF (ops.foldl applyOp g) := by
  induction ops with
  | nil => intro g hwf; exact hwf
  | cons op ops ih =>
    intro g hwf
    rw [List.foldl_cons]
    exact ih _ (GraphWF_applyOp g op hwf)

theorem buildGraph_WF (ops : List Op) : GraphWF (buildGraph ops) :=
  GraphWF_foldl ops Graph.empty GraphWF_empty

/-- Claim C6: every sequence of `add_node` / `add_edge` operations
preserves the graph invariants: adjacency is symmetric, no self-loop is
stored, no undirected pair appears twice in `edges`, and every node's
stored degree equals the size of its adjacency set and of its neighbor
set. -/
theorem C6_operations_preserve_invariants (ops : List Op) :
    (∀ u v, v ∈ adjGet (buildGraph ops) u ↔ u ∈ adjGet (buildGraph ops) v) ∧
    (∀ e ∈ (buildGraph ops).edges, e.1 ≠ e.2) ∧
    (buildGraph ops).edges.Pairwise (fun e f => ¬ sameEdge e f) ∧
    (∀ p ∈ (buildGraph ops).nodes,
      p.2.degree = (adjGet (buildGraph ops) p.1).length ∧
      p.2.degree = p.2.neighbors.length) := by
  have hwf := buildGraph_WF ops
  refine ⟨?_, hwf.noSelfLoop, hwf.edgePairwise, ?_⟩
  · intro u v
    exact ⟨fun h => hwf.adjSymm h, fun h => hwf.adjSymm h⟩
  · intro p hp
    rcases hwf.nodeFields p hp with ⟨_, hdeg, hnb⟩
    exact ⟨hdeg, by rw [hdeg, hnb]⟩

/-! ## DSATUR selection characterization (C4) -/

/-- Weak lexicographic order on `(saturation, degree)` keys. -/
def keyLe (p q : Nat × Nat) : Prop :=
  p.1 < q.1 ∨ (p.1 = q.1 ∧ p.2 ≤ q.2)

theorem lexGt_iff {p q : Nat × Nat} :
    lexGt p q = true ↔ (q.1 < p.1 ∨ (p.1 = q.1 ∧ q.2 < p.2)) := by
  unfold lexGt
  simp [Bool.or_eq_true, Bool.and_eq_true, decide_eq_true_eq]

theorem keyLe_of_not_lexGt {p q : Nat × Nat} (h : ¬ lexGt p q = true) : keyLe p q := by
  rw [lexGt_iff] at h
  push_neg at h
  unfold keyLe
  omega

theorem keyLe_of_lexGt {p q : Nat × Nat} (h : lexGt p q = true) : keyLe q p := by
  rw [lexGt_iff] at h
  unfold keyLe
  omega

theorem keyLe_trans {p q r : Nat × Nat} (h1 : keyLe p q) (h2 : keyLe q r) : keyLe p r := by
  unfold keyLe at h1 h2 ⊢
  omega

theorem maxByDegAux_spec (g : Graph) :
    ∀ (l : List Nat) (best : Nat), List.Sorted (· ≤ ·) (best :: l) →
      maxByDegAux g best l ∈ best :: l ∧
      (∀ x ∈ best :: l, degreeOf g x ≤ degreeOf g (maxByDegAux g best l)) ∧
      (∀ x ∈ best :: l, degreeOf g x = degreeOf g (maxByDegAux g best l) →
        maxByDegAux g best l ≤ x) := by
  intro l
  induction l with
  | nil =>
    intro best _
    simp only [maxByDegAux]
    exact ⟨List.mem_singleton.mpr rfl, by
      intro x hx
      rw [List.mem_singleton.mp hx], by
      intro x hx _
      rw [List.mem_singleton.mp hx]⟩
  | cons y l' ih =>
    intro best hsort
    have hby : best ≤ y := (List.sorted_cons.mp hsort).1 y (List.mem_cons_self _ _)
    have hbl : ∀ x ∈ l', best ≤ x := fun x hx =>
      (List.sorted_cons.mp hsort).1 x (List.mem_cons_of_mem _ hx)
    have hyl : ∀ x ∈ l', y ≤ x := fun x hx =>
      (List.sorted_cons.mp (List.sorted_cons.mp hsort).2).1 x hx
    have hsl' : List.Sorted (· ≤ ·) l' := (List.sorted_cons.mp (List.sorted_cons.mp hsort).2).2
    simp only [maxByDegAux]
    by_cases hc : degreeOf g best < degreeOf g y
    · rw [if_pos hc]
      have hsort' : List.Sorted (· ≤ ·) (y :: l') := (List.sorted_cons.mp hsort).2
      rcases ih y hsort' with ⟨hm, hbound, htie⟩
      refine ⟨?_, ?_, ?_⟩
      · rcases List.mem_cons.mp hm with h | h
        · rw [h]
          exact List.mem_cons_of_mem _ (List.mem_cons_self _ _)
        · exact List.mem_cons_of_mem _ (List.mem_cons_of_mem _ h)
      · intro x hx
        rcases List.mem_cons.mp hx with rfl | hx'
        · exact le_trans (le_of_lt hc) (hbound y (List.mem_cons_self _ _))
        · exact hbound x hx'
      · intro x hx heq
        rcases List.mem_cons.mp hx with rfl | hx'
        · exfalso
          have := hbound y (List.mem_cons_self _ _)
          omega
        · exact htie x hx' heq
    · rw [if_neg hc]
      have hsort' : List.Sorted (· ≤ ·) (best :: l') := by
        rw [List.sorted_cons]
        exact ⟨hbl, hsl'⟩
      rcases ih best hsort' with ⟨hm, hbound, htie⟩
      refine ⟨?_, ?_, ?_⟩
      · rcases List.mem_cons.mp hm with h | h
        · rw [h]
          exact List.mem_cons_self _ _
        · exact List.mem_cons_of_mem _ (List.mem_cons_of_mem _ h)
      · intro x hx
        rcases List.mem_cons.mp hx with rfl | hx'
        · exact hbound x (List.mem_cons_self _ _)
        · rcases List.mem_cons.mp hx' with rfl | hx''
          · exact le_trans (Nat.le_of_not_lt hc) (hbound best (List.mem_cons_self _ _))
          · exact hbound x (List.mem_cons_of_mem _ hx'')
      · intro x hx heq
        rcases List.mem_cons.mp hx with rfl | hx'
        · exact htie x (List.mem_cons_self _ _) heq
        · rcases List.mem_cons.mp hx' with rfl | hx''
          · have h1 := hbound best (List.mem_cons_self _ _)
            have h2 : degreeOf g best = degreeOf g (maxByDegAux g best l') := by omega
            exact le_trans (htie best (List.mem_cons_self _ _) h2) hby
          · exact htie x (List.mem_cons_of_mem _ hx'') heq

theorem maxBySatDegAux_spec (g : Graph) :
    ∀ (l : List Nat) (best : Nat), List.Sorted (· ≤ ·) (best :: l) →
      maxBySatDegAux g best l ∈ best :: l ∧
      (∀ x ∈ best :: l, keyLe (satOf g x, degreeOf g x)
        (satOf g (maxBySatDegAux g best l), degreeOf g (maxBySatDegAux g best l))) ∧
      (∀ x ∈ best :: l, satOf g x = satOf g (maxBySatDegAux g best l) →
        degreeOf g x = degreeOf g (maxBySatDegAux g best l) →
        maxBySatDegAux g best l ≤ x) := by
  intro l
  induction l with
  | nil =>
    intro best _
    simp only [maxBySatDegAux]
    refine ⟨List.mem_singleton.mpr rfl, ?_, ?_⟩
    · intro x hx
      rw [List.mem_singleton.mp hx]
      exact Or.inr ⟨rfl, le_refl _⟩
    · intro x hx _ _
      rw [List.mem_singleton.mp hx]
  | cons y l' ih =>
    intro best hsort
    have hby : best ≤ y := (List.sorted_cons.mp hsort).1 y (List.mem_cons_self _ _)
    have hbl : ∀ x ∈ l', best ≤ x := fun x hx =>
      (List.sorted_cons.mp hsort).1 x (List.mem_cons_of_mem _ hx)
    have hsl' : List.Sorted (· ≤ ·) l' := (List.sorted_cons.mp (List.sorted_cons.mp hsort).2).2
    simp only [maxBySatDegAux]
    by_cases hc : lexGt (satOf g y, degreeOf g y) (satOf g best, degreeOf g best) = true
    · rw [if_pos hc]
      have hblt := keyLe_of_lexGt hc
      have hsort' : List.Sorted (· ≤ ·) (y :: l') := (List.sorted_cons.mp hsort).2
      rcases ih y hsort' with ⟨hm, hbound, htie⟩
      refine ⟨?_, ?_, ?_⟩
      · rcases List.mem_cons.mp hm with h | h
        · rw [h]
          exact List.mem_cons_of_mem _ (List.mem_cons_self _ _)
        · exact List.mem_cons_of_mem _ (List.mem_cons_of_mem _ h)
      · intro x hx
        rcases List.mem_cons.mp hx with rfl | hx'
        · exact keyLe_trans hblt (hbound y (List.mem_cons_self _ _))
        · exact hbound x hx'
      · intro x hx hs hd
        rcases List.mem_cons.mp hx with rfl | hx'
        · exfalso
          have h1 := hbound y (List.mem_cons_self _ _)
          rw [lexGt_iff] at hc
          unfold keyLe at h1
          simp only at h1 hc
          omega
        · exact htie x hx' hs hd
    · rw [if_neg hc]
      have hble := keyLe_of_not_lexGt hc
      have hsort' : List.Sorted (· ≤ ·) (best :: l') := by
        rw [List.sorted_cons]
        exact ⟨hbl, hsl'⟩
      rcases ih best hsort' with ⟨hm, hbound, htie⟩
      refine ⟨?_, ?_, ?_⟩
      · rcases List.mem_cons.mp hm with h | h
        · rw [h]
          exact List.mem_cons_self _ _
        · exact List.mem_cons_of_mem _ (List.mem_cons_of_mem _ h)
      · intro x hx
        rcases List.mem_cons.mp hx with rfl | hx'
        · exact hbound x (List.mem_cons_self _ _)
        · rcases List.mem_cons.mp hx' with rfl | hx''
          · exact keyLe_trans hble (hbound best (List.mem_cons_self _ _))
          · exact hbound x (List.mem_cons_of_mem _ hx'')
      · intro x hx hs hd
        rcases List.mem_cons.mp hx with rfl | hx'
        · exact htie x (List.mem_cons_self _ _) hs hd
        · rcases List.mem_cons.mp hx' with rfl | hx''
          · have h1 := hbound best (List.mem_cons_self _ _)
            unfold keyLe at h1 hble
            simp only at h1 hble
            have hs2 : satOf g best = satOf g (maxBySatDegAux g best l') := by omega
            have hd2 : degreeOf g best = degreeOf g (maxBySatDegAux g best l') := by omega
            exact le_trans (htie best (List.mem_cons_self _ _) hs2 hd2) hby
          · exact htie x (List.mem_cons_of_mem _ hx'') hs hd

/-- Claim C4: on the ascending `uncolored` list (CPython iteration order
for the consecutive small-int ids this engine uses), DSATUR's first
colored node is a maximum-degree node, smallest id among ties; and the
per-step selection is an uncolored node of maximal saturation, ties
broken by higher degree, remaining ties by smallest id. -/
theorem C4_dsatur_selection_rule (g : Graph) (unc : List Nat)
    (hne : unc ≠ []) (hsort : List.Sorted (· ≤ ·) unc) :
    (dsatur_first_choice g unc ∈ unc ∧
      (∀ x ∈ unc, degreeOf g x ≤ degreeOf g (dsatur_first_choice g unc)) ∧
      (∀ x ∈ unc, degreeOf g x = degreeOf g (dsatur_first_choice g unc) →
        dsatur_first_choice g unc ≤ x)) ∧
    (dsatur_select g unc ∈ unc ∧
      (∀ x ∈ unc, satOf g x < satOf g (dsatur_select g unc) ∨
        (satOf g x = satOf g (dsatur_select g unc) ∧
          degreeOf g x ≤ degreeOf g (dsatur_select g unc))) ∧
      (∀ x ∈ unc, satOf g x = satOf g (dsatur_select g unc) →
        degreeOf g x = degreeOf g (dsatur_select g unc) →
        dsatur_select g unc ≤ x)) := by
  cases unc with
  | nil => exact absurd rfl hne
  | cons x l =>
    constructor
    · have h := maxByDegAux_spec g l x hsort
      exact ⟨h.1, h.2.1, h.2.2⟩
    · have h := maxBySatDegAux_spec g l x hsort
      refine ⟨h.1, ?_, h.2.2⟩
      intro z hz
      have := h.2.1 z hz
      unfold keyLe at this
      simp only at this
      rcases this with h1 | h1
      · exact Or.inl h1
      · exact Or.inr h1

/-- Witness for C4 on the path graph with `uncolored = [0, 1, 2]`. -/
theorem C4_dsatur_selection_rule_witness :
    (dsatur_first_choice gPath3 [0, 1, 2] ∈ [0, 1, 2] ∧
      (∀ x ∈ [0, 1, 2], degreeOf gPath3 x ≤ degreeOf gPath3 (dsatur_first_choice gPath3 [0, 1, 2])) ∧
      (∀ x ∈ [0, 1, 2], degreeOf gPath3 x = degreeOf gPath3 (dsatur_first_choice gPath3 [0, 1, 2]) →
        dsatur_first_choice gPath3 [0, 1, 2] ≤ x)) ∧
    (dsatur_select gPath3 [0, 1, 2] ∈ [0, 1, 2] ∧
      (∀ x ∈ [0, 1, 2], satOf gPath3 x < satOf gPath3 (dsatur_select gPath3 [0, 1, 2]) ∨
        (satOf gPath3 x = satOf gPath3 (dsatur_select gPath3 [0, 1, 2]) ∧
          degreeOf gPath3 x ≤ degreeOf gPath3 (dsatur_select gPath3 [0, 1, 2]))) ∧
      (∀ x ∈ [0, 1, 2], satOf gPath3 x = satOf gPath3 (dsatur_select gPath3 [0, 1, 2]) →
        degreeOf gPath3 x = degreeOf gPath3 (dsatur_select gPath3 [0, 1, 2]) →
        dsatur_select gPath3 [0, 1, 2] ≤ x)) :=
  C4_dsatur_selection_rule gPath3 [0, 1, 2] (by decide) (by decide)

/-! ## First-fit color bounds (C10) -/

theorem le_foldr_max {l : List Nat} {c : Nat} (h : c ∈ l) : c ≤ l.foldr Nat.max 0 := by
  induction l with
  | nil => cases h
  | cons x xs ih =>
    rcases List.mem_cons.mp h with h1 | h1
    · rw [h1]
      exact Nat.le_max_left _ _
    · exact le_trans (ih h1) (Nat.le_max_right _ _)

/-- The degrees of the nodes, in insertion order. -/
def degreesOf (g : Graph) : List Nat :=
  g.nodes.map (fun p => p.2.degree)

/-- The maximum node degree of the graph. -/
def maxDegree (g : Graph) : Nat :=
  (degreesOf g).foldr Nat.max 0

theorem degreesOf_updateNode {g : Graph} {k : Nat} {f : NodeData → NodeData}
    (hf : ∀ nd, (f nd).degree = nd.degree) :
    degreesOf (updateNode g k f) = degreesOf g := by
  unfold degreesOf updateNode
  rw [List.map_map]
  apply List.map_congr_left
  intro p _
  by_cases hp : p.1 = k
  · simp [hp, hf]
  · simp [hp]

theorem degreesOf_setColor (g : Graph) (k : Nat) (c : Option Nat) :
    degreesOf (setColor g k c) = degreesOf g :=
  degreesOf_updateNode (fun _ => rfl)

theorem degreesOf_setSat (g : Graph) (k s : Nat) :
    degreesOf (setSat g k s) = degreesOf g :=
  degreesOf_updateNode (fun _ => rfl)

theorem degreesOf_reset (g : Graph) : degreesOf g.reset_colors = degreesOf g := by
  unfold degreesOf Graph.reset_colors
  rw [List.map_map]
  apply List.map_congr_left
  intro p _
  rfl

theorem degreesOf_colorNodesInOrder (order : List Nat) :
    ∀ g : Graph, degreesOf (colorNodesInOrder g order) = degreesOf g := by
  induction order with
  | nil => intro g; rfl
  | cons x xs ih =>
    intro g
    unfold colorNodesInOrder at ih ⊢
    rw [List.foldl_cons, ih, degreesOf_setColor]

theorem degreesOf_satFold (unc : List Nat) (val : Graph → Nat → Nat) (l : List Nat) :
    ∀ h : Graph,
      degreesOf (l.foldl (fun h n => if n ∈ unc then setSat h n (val h n) else h) h)
        = degreesOf h := by
  induction l with
  | nil => intro h; rfl
  | cons x xs ih =>
    intro h
    by_cases hx : x ∈ unc
    · rw [List.foldl_cons, if_pos hx, ih, degreesOf_setSat]
    · rw [List.foldl_cons, if_neg hx, ih]

theorem degreesOf_dsaturLoop : ∀ (fuel : Nat) (g : Graph) (unc : List Nat),
    degreesOf (dsaturLoop fuel g unc) = degreesOf g := by
  intro fuel
  induction fuel with
  | zero => intro g unc; rfl
  | succ n ih =>
    intro g unc
    by_cases huc : unc = []
    · subst huc
      rw [dsaturLoop_succ_nil]
    · rw [dsaturLoop_succ_cons n g huc, ih]
      unfold dsaturSatUpdate
      rw [degreesOf_satFold]
      unfold dsaturAssign
      rw [degreesOf_setColor]

/-- The node mutators that touch only `color`/`saturation` preserve the
whole structural invariant. -/
theorem GraphWF_updateNode {g : Graph} {k : Nat} {f : NodeData → NodeData}
    (hf : ∀ nd, (f nd).id = nd.id ∧ (f nd).degree = nd.degree ∧
      (f nd).neighbors = nd.neighbors)
    (hwf : GraphWF g) : GraphWF (updateNode g k f) := by
  have hkeys := updateNode_keys g k f
  refine ⟨by rw [hkeys]; exact hwf.nodesNodup, hwf.adjKeysNodup, hwf.adjValsNodup,
    ?_, hwf.edgePairwise, hwf.adjToEdges, hwf.edgeAdj, ?_⟩
  · intro e he
    rw [hkeys]
    exact hwf.edgeEndpoints e he
  · intro p hp
    rcases List.mem_map.mp hp with ⟨q, hq, hpq⟩
    rcases hwf.nodeFields q hq with ⟨hid, hdeg, hnb⟩
    rw [← hpq]
    by_cases hk : q.1 = k
    · rw [if_pos hk]
      rcases hf q.2 with ⟨hfi, hfd, hfn⟩
      exact ⟨hfi.trans hid, by rw [hfd]; exact hdeg, by rw [hfn]; exact hnb⟩
    · rw [if_neg hk]
      exact ⟨hid, hdeg, hnb⟩

theorem GraphWF_setColor (g : Graph) (k : Nat) (c : Option Nat) (hwf : GraphWF g) :
    GraphWF (setColor g k c) :=
  GraphWF_updateNode (fun _ => ⟨rfl, rfl, rfl⟩) hwf

theorem GraphWF_setSat (g : Graph) (k s : Nat) (hwf : GraphWF g) :
    GraphWF (setSat g k s) :=
  GraphWF_updateNode (fun _ => ⟨rfl, rfl, rfl⟩) hwf

theorem GraphWF_reset (g : Graph) (hwf : GraphWF g) : GraphWF g.reset_colors := by
  have hkeys := reset_colors_keys g
  refine ⟨by rw [hkeys]; exact hwf.nodesNodup, hwf.adjKeysNodup, hwf.adjValsNodup,
    ?_, hwf.edgePairwise, hwf.adjToEdges, hwf.edgeAdj, ?_⟩
  · intro e he
    rw [hkeys]
    exact hwf.edgeEndpoints e he
  · intro p hp
    rcases List.mem_map.mp hp with ⟨q, hq, hpq⟩
    rcases hwf.nodeFields q hq with ⟨hid, hdeg, hnb⟩
    rw [← hpq]
    exact ⟨hid, hdeg, hnb⟩

/-- Every assigned color is bounded by the node's stored degree. -/
def ColorsLeDegree (g : Graph) : Prop :=
  ∀ p ∈ g.nodes, ∀ c, p.2.color = some c → c ≤ p.2.degree

theorem colorsLeDegree_reset (g : Graph) : ColorsLeDegree g.reset_colors := by
  intro p hp c hc
  rw [reset_colors_all_none g p hp] at hc
  cases hc

theorem gsac_neighbor_le_adj (g : Graph) (v : Nat) :
    get_smallest_available_color (g.get_neighbor_colors v) ≤ (adjGet g v).length :=
  le_trans (gsac_le_length (get_neighbor_colors_nodup g v)) (get_neighbor_colors_length g v)

theorem colorsLeDegree_setColor {g : Graph} (hwf : GraphWF g) {v c : Nat}
    (hc : c ≤ (adjGet g v).length) (h : ColorsLeDegree g) :
    ColorsLeDegree (setColor g v (some c)) := by
  intro p hp cc hcc
  rcases List.mem_map.mp hp with ⟨q, hq, hpq⟩
  rw [← hpq] at hcc ⊢
  by_cases hk : q.1 = v
  · rw [if_pos hk] at hcc ⊢
    simp only at hcc ⊢
    cases hcc
    rcases hwf.nodeFields q hq with ⟨_, hdeg, _⟩
    rw [hdeg, hk]
    exact hc
  · rw [if_neg hk] at hcc ⊢
    exact h q hq cc hcc

theorem colorsLeDegree_setSat (g : Graph) (k s : Nat) (h : ColorsLeDegree g) :
    ColorsLeDegree (setSat g k s) := by
  intro p hp cc hcc
  rcases List.mem_map.mp hp with ⟨q, hq, hpq⟩
  rw [← hpq] at hcc ⊢
  by_cases hk : q.1 = k
  · rw [if_pos hk] at hcc ⊢
    simp only at hcc ⊢
    exact h q hq cc hcc
  · rw [if_neg hk] at hcc ⊢
    exact h q hq cc hcc

theorem colorsLeDegree_colorNodesInOrder (order : List Nat) :
    ∀ g : Graph, GraphWF g → ColorsLeDegree g →
      ColorsLeDegree (colorNodesInOrder g order) ∧ GraphWF (colorNodesInOrder g order) := by
  induction order with
  | nil => intro g hwf h; exact ⟨h, hwf⟩
  | cons x xs ih =>
    intro g hwf h
    unfold colorNodesInOrder at ih ⊢
    rw [List.foldl_cons]
    exact ih _ (GraphWF_setColor _ _ _ hwf)
      (colorsLeDegree_setColor hwf (gsac_neighbor_le_adj g x) h)

theorem colorsLeDegree_satFold (unc : List Nat) (val : Graph → Nat → Nat) (l : List Nat) :
    ∀ h : Graph, GraphWF h → ColorsLeDegree h →
      ColorsLeDegree (l.foldl (fun h n => if n ∈ unc then setSat h n (val h n) else h) h) ∧
      GraphWF (l.foldl (fun h n => if n ∈ unc then setSat h n (val h n) else h) h) := by
  induction l with
  | nil => intro h hwf hc; exact ⟨hc, hwf⟩
  | cons x xs ih =>
    intro h hwf hc
    by_cases hx : x ∈ unc
    · rw [List.foldl_cons, if_pos hx]
      exact ih _ (GraphWF_setSat _ _ _ hwf) (colorsLeDegree_setSat _ _ _ hc)
    · rw [List.foldl_cons, if_neg hx]
      exact ih _ hwf hc

theorem colorsLeDegree_dsaturLoop : ∀ (fuel : Nat) (g : Graph) (unc : List Nat),
    GraphWF g → ColorsLeDegree g →
      ColorsLeDegree (dsaturLoop fuel g unc) ∧ GraphWF (dsaturLoop fuel g unc) := by
  intro fuel
  induction fuel with
  | zero => intro g unc hwf hc; exact ⟨hc, hwf⟩
  | succ n ih =>
    intro g unc hwf hc
    by_cases huc : unc = []
    · subst huc
      rw [dsaturLoop_succ_nil]
      exact ⟨hc, hwf⟩
    · rw [dsaturLoop_succ_cons n g huc]
      have hwf1 : GraphWF (dsaturAssign g (dsatur_select g unc)) :=
        GraphWF_setColor _ _ _ hwf
      have hc1 : ColorsLeDegree (dsaturAssign g (dsatur_select g unc)) :=
        colorsLeDegree_setColor hwf (gsac_neighbor_le_adj g _) hc
      unfold dsaturSatUpdate
      rcases colorsLeDegree_satFold (unc.erase (dsatur_select g unc))
        (fun h n => (h.get_neighbor_colors n).length)
        (adjGet (dsaturAssign g (dsatur_select g unc)) (dsatur_select g unc))
        (dsaturAssign g (dsatur_select g unc)) hwf1 hc1 with ⟨hc2, hwf2⟩
      exact ih _ _ hwf2 hc2

/-- Colors bounded per node imply the chromatic-number bound
`maxDegree + 1`. -/
theorem chromatic_le_of_colorsLeDegree {g : Graph} (h : ColorsLeDegree g) :
    g.get_chromatic_number ≤ maxDegree g + 1 := by
  unfold Graph.get_chromatic_number
  rw [← List.card_toFinset]
  have hsub : (g.nodes.filterMap (fun p => p.2.color)).toFinset
      ⊆ Finset.range (maxDegree g + 1) := by
    intro c hc
    rw [List.mem_toFinset, List.mem_filterMap] at hc
    rcases hc with ⟨p, hp, hcol⟩
    have h1 : c ≤ p.2.degree := h p hp c hcol
    have h2 : p.2.degree ∈ degreesOf g := List.mem_map_of_mem _ hp
    have h3 := le_foldr_max h2
    rw [Finset.mem_range]
    unfold maxDegree
    omega
  have := Finset.card_le_card hsub
  rwa [Finset.card_range] at this

/-- Claim C10: after `greedy_coloring`, `welsh_powell` or `dsatur`, every
node's assigned color is at most its degree (first-fit never skips past
the neighbor-color set, whose size is bounded by the degree), and hence
the achieved chromatic number is at most the maximum degree plus one. -/
theorem C10_first_fit_degree_bound (g : Graph) (hwf : GraphWF g) :
    (∀ p ∈ (greedy_coloring g).nodes, ∀ c, p.2.color = some c → c ≤ p.2.degree) ∧
    (greedy_coloring g).get_chromatic_number ≤ maxDegree g + 1 ∧
    (∀ p ∈ (welsh_powell g).nodes, ∀ c, p.2.color = some c → c ≤ p.2.degree) ∧
    (welsh_powell g).get_chromatic_number ≤ maxDegree g + 1 ∧
    (∀ p ∈ (dsatur g).nodes, ∀ c, p.2.color = some c → c ≤ p.2.degree) ∧
    (dsatur g).get_chromatic_number ≤ maxDegree g + 1 := by
  have hwf0 := GraphWF_reset g hwf
  have hc0 := colorsLeDegree_reset g
  have hgreedy : ColorsLeDegree (greedy_coloring g) := by
    unfold greedy_coloring
    exact (colorsLeDegree_colorNodesInOrder _ _ hwf0 hc0).1
  have hwp : ColorsLeDegree (welsh_powell g) := by
    unfold welsh_powell
    exact (colorsLeDegree_colorNodesInOrder _ _ hwf0 hc0).1
  have hds : ColorsLeDegree (dsatur g) := by
    rcases hu : sortAsc (dictKeys g.reset_colors.nodes) with _ | ⟨x, xs⟩
    · rw [dsatur_eq_of_nil hu]
      exact hc0
    · rw [dsatur_eq_of_cons hu]
      have hwf1 : GraphWF (setColor g.reset_colors
          (dsatur_first_choice g.reset_colors (x :: xs)) (some 0)) :=
        GraphWF_setColor _ _ _ hwf0
      have hc1 : ColorsLeDegree (setColor g.reset_colors
          (dsatur_first_choice g.reset_colors (x :: xs)) (some 0)) :=
        colorsLeDegree_setColor hwf0 (Nat.zero_le _) hc0
      unfold dsaturInitSat
      rcases colorsLeDegree_satFold _ _ _ _ hwf1 hc1 with ⟨hc2, hwf2⟩
      exact (colorsLeDegree_dsaturLoop _ _ _ hwf2 hc2).1
  have hmd_g : maxDegree (greedy_coloring g) = maxDegree g := by
    unfold maxDegree greedy_coloring
    rw [degreesOf_colorNodesInOrder, degreesOf_reset]
  have hmd_w : maxDegree (welsh_powell g) = maxDegree g := by
    unfold maxDegree welsh_powell
    rw [degreesOf_colorNodesInOrder, degreesOf_reset]
  have hmd_d : maxDegree (dsatur g) = maxDegree g := by
    unfold maxDegree
    rcases hu : sortAsc (dictKeys g.reset_colors.nodes) with _ | ⟨x, xs⟩
    · rw [dsatur_eq_of_nil hu, degreesOf_reset]
    · rw [dsatur_eq_of_cons hu, degreesOf_dsaturLoop]
      unfold dsaturInitSat
      rw [degreesOf_satFold, degreesOf_setColor, degreesOf_reset]
  refine ⟨hgreedy, ?_, hwp, ?_, hds, ?_⟩
  · rw [← hmd_g]
    exact chromatic_le_of_colorsLeDegree hgreedy
  · rw [← hmd_w]
    exact chromatic_le_of_colorsLeDegree hwp
  · rw [← hmd_d]
    exact chromatic_le_of_colorsLeDegree hds

/-- Witness for C10 on the concrete path graph. -/
theorem C10_first_fit_degree_bound_witness :
    (∀ p ∈ (greedy_coloring gPath3).nodes, ∀ c, p.2.color = some c → c ≤ p.2.degree) ∧
    (greedy_coloring gPath3).get_chromatic_number ≤ maxDegree gPath3 + 1 ∧
    (∀ p ∈ (welsh_powell gPath3).nodes, ∀ c, p.2.color = some c → c ≤ p.2.degree) ∧
    (welsh_powell gPath3).get_chromatic_number ≤ maxDegree gPath3 + 1 ∧
    (∀ p ∈ (dsatur gPath3).nodes, ∀ c, p.2.color = some c → c ≤ p.2.degree) ∧
    (dsatur gPath3).get_chromatic_number ≤ maxDegree gPath3 + 1 :=
  C10_first_fit_degree_bound gPath3 (by decide)

/-! ## Complete graphs `K_n` (C9) -/

theorem insertAsc_perm (x : Nat) : ∀ l : List Nat, List.Perm (insertAsc x l) (x :: l) := by
  intro l
  induction l with
  | nil => exact List.Perm.refl _
  | cons y l' ih =>
    unfold insertAsc
    by_cases h : x ≤ y
    · rw [if_pos h]
    · rw [if_neg h]
      exact List.Perm.trans (List.Perm.cons y ih) (List.Perm.swap x y l')

theorem sortAsc_perm : ∀ l : List Nat, List.Perm (sortAsc l) l := by
  intro l
  induction l with
  | nil => exact List.Perm.refl _
  | cons x l' ih =>
    unfold sortAsc
    exact List.Perm.trans (insertAsc_perm x (sortAsc l')) (List.Perm.cons x ih)

theorem insertByDegDesc_perm (p : Nat × NodeData) :
    ∀ l : List (Nat × NodeData), List.Perm (insertByDegDesc p l) (p :: l) := by
  intro l
  induction l with
  | nil => exact List.Perm.refl _
  | cons q l' ih =>
    unfold insertByDegDesc
    by_cases h : q.2.degree ≤ p.2.degree
    · rw [if_pos h]
    · rw [if_neg h]
      exact List.Perm.trans (List.Perm.cons q ih) (List.Perm.swap p q l')

theorem sortByDegDesc_perm : ∀ l : List (Nat × NodeData), List.Perm (sortByDegDesc l) l := by
  intro l
  induction l with
  | nil => exact List.Perm.refl _
  | cons p l' ih =>
    unfold sortByDegDesc
    exact List.Perm.trans (insertByDegDesc_perm p (sortByDegDesc l')) (List.Perm.cons p ih)

theorem maxByDegAux_mem (g : Graph) :
    ∀ (l : List Nat) (best : Nat), maxByDegAux g best l ∈ best :: l := by
  intro l
  induction l with
  | nil => intro best; exact List.mem_singleton.mpr rfl
  | cons x xs ih =>
    intro best
    simp only [maxByDegAux]
    by_cases hc : degreeOf g best < degreeOf g x
    · rw [if_pos hc]
      rcases List.mem_cons.mp (ih x) with h | h
      · rw [h]
        exact List.mem_cons_of_mem _ (List.mem_cons_self _ _)
      · exact List.mem_cons_of_mem _ (List.mem_cons_of_mem _ h)
    · rw [if_neg hc]
      rcases List.mem_cons.mp (ih best) with h | h
      · rw [h]
        exact List.mem_cons_self _ _
      · exact List.mem_cons_of_mem _ (List.mem_cons_of_mem _ h)

theorem dsatur_first_choice_mem (g : Graph) (unc : List Nat) (h : unc ≠ []) :
    dsatur_first_choice g unc ∈ unc := by
  cases unc with
  | nil => exact absurd rfl h
  | cons x l => exact maxByDegAux_mem g l x

theorem colorsOf_reset (g : Graph) : colorsOf g.reset_colors = [] := by
  unfold colorsOf Graph.reset_colors
  rw [List.filterMap_map]
  rw [List.filterMap_eq_nil_iff]
  intro p _
  rfl

/-- Setting the color of an uncolored node prepends that color to the
color multiset. -/
theorem filterMap_color_update (v c : Nat) :
    ∀ (l : List (Nat × NodeData)) (nd : NodeData), (dictKeys l).Nodup →
      dictLookup l v = some nd → nd.color = none →
      List.Perm
        ((l.map (fun p => if p.1 = v then
          (p.1, { p.2 with color := some c }) else p)).filterMap (fun p => p.2.color))
        (c :: l.filterMap (fun p => p.2.color)) := by
  intro l
  induction l with
  | nil =>
    intro nd _ hl
    cases hl
  | cons q rest ih =>
    intro nd hnd hl hc
    by_cases hq : q.1 = v
    · -- the head is the looked-up entry
      rw [dictKeys_cons] at hnd
      have hqnd : q.2 = nd := by
        unfold dictLookup at hl
        rw [if_pos hq] at hl
        exact Option.some.injEq _ _ ▸ hl
      have hrest : rest.map (fun p => if p.1 = v then
          (p.1, { p.2 with color := some c }) else p) = rest := by
        have hcongr : ∀ p ∈ rest, (if p.1 = v then
            (p.1, { p.2 with color := some c }) else p) = id p := by
          intro p hp
          have hpv : p.1 ≠ v := by
            intro he
            apply (List.nodup_cons.mp hnd).1
            rw [hq, ← he]
            exact mem_dictKeys_of_mem hp
          rw [if_neg hpv]
          rfl
        rw [List.map_congr_left hcongr, List.map_id]
      rw [List.map_cons, if_pos hq, hrest]
      have hqcol : q.2.color = none := by rw [hqnd]; exact hc
      simp only [List.filterMap_cons, hqcol]
      exact List.Perm.refl _
    · rw [dictKeys_cons] at hnd
      have hl' : dictLookup rest v = some nd := by
        unfold dictLookup at hl
        rwa [if_neg hq] at hl
      have ihr := ih nd (List.nodup_cons.mp hnd).2 hl' hc
      rw [List.map_cons, if_neg hq]
      rcases hqc : q.2.color with _ | d
      · simp only [List.filterMap_cons, hqc]
        exact ihr
      · simp only [List.filterMap_cons, hqc]
        exact List.Perm.trans (List.Perm.cons d ihr) (List.Perm.swap c d _)

theorem colorsOf_setColor_perm {g : Graph} (hnd : (dictKeys g.nodes).Nodup) {v : Nat}
    {nd : NodeData} (hl : dictLookup g.nodes v = some nd) (hc : nd.color = none)
    (c : Nat) : List.Perm (colorsOf (setColor g v (some c))) (c :: colorsOf g) :=
  filterMap_color_update v c g.nodes nd hnd hl hc

/-- The complete-graph shape used by the `K_n` results: unique small-int
node ids `0..n-1`, all pairwise adjacent. -/
def KComplete (g : Graph) (n : Nat) : Prop :=
  (dictKeys g.nodes).Nodup ∧
  (∀ k, k ∈ dictKeys g.nodes ↔ k < n) ∧
  (∀ u v, u < n → v < n → u ≠ v → v ∈ adjGet g u)

theorem dictKeys_eq_colorMap_keys (g : Graph) :
    dictKeys g.nodes = (colorMap g).map Prod.fst := by
  unfold dictKeys colorMap
  rw [List.map_map]
  rfl

theorem KComplete_of_frame {g g' : Graph} (hcm : colorMap g' = colorMap g)
    (ha : g'.adjacency = g.adjacency) (h : KComplete g n) : KComplete g' n := by
  have hkeys : dictKeys g'.nodes = dictKeys g.nodes := by
    rw [dictKeys_eq_colorMap_keys, dictKeys_eq_colorMap_keys, hcm]
  refine ⟨by rw [hkeys]; exact h.1, ?_, ?_⟩
  · intro k
    rw [hkeys]
    exact h.2.1 k
  · intro u v hu hv huv
    rw [adjGet_eq_of_adjacency ha]
    exact h.2.2 u v hu hv huv

theorem colorMap_setColor (g : Graph) (v : Nat) (c : Option Nat) :
    colorMap (setColor g v c)
      = (colorMap g).map (fun q => if q.1 = v then (q.1, c) else q) := by
  unfold colorMap setColor updateNode
  rw [List.map_map, List.map_map]
  apply List.map_congr_left
  intro p _
  by_cases hp : p.1 = v
  · simp [hp]
  · simp [hp]

theorem KComplete_setColor {g : Graph} {n : Nat} (h : KComplete g n) (v : Nat)
    (c : Option Nat) : KComplete (setColor g v c) n := by
  refine ⟨by rw [setColor_keys]; exact h.1, ?_, ?_⟩
  · intro k
    rw [setColor_keys]
    exact h.2.1 k
  · intro u w hu hw huw
    rw [adjGet_eq_of_adjacency (setColor_adjacency g v c)]
    exact h.2.2 u w hu hw huw

/-- On a complete graph, an uncolored node's neighbor-color set is
exactly the set of colors already used. -/
theorem kc_neighbor_colors {g : Graph} {n t v : Nat} (hkc : KComplete g n)
    (hinv : List.Perm (colorsOf g) (List.range t)) (hv : v ∈ dictKeys g.nodes)
    (hvc : nodeColor g v = none) :
    ∀ c, c ∈ g.get_neighbor_colors v ↔ c < t := by
  intro c
  rw [mem_get_neighbor_colors]
  constructor
  · rintro ⟨u, _, hcu⟩
    have h1 : c ∈ colorsOf g := nodeColor_mem_colorsOf hcu
    have h2 := hinv.mem_iff.mp h1
    simpa using h2
  · intro hct
    have hcr : c ∈ colorsOf g := hinv.mem_iff.mpr (by simpa using hct)
    rcases mem_colorsOf.mp hcr with ⟨p, hp, hcol⟩
    have hlp : dictLookup g.nodes p.1 = some p.2 := dictLookup_of_mem_nodup hkc.1 hp
    have hneq : p.1 ≠ v := by
      intro he
      rw [he] at hlp
      unfold nodeColor at hvc
      rw [hlp] at hvc
      simp only [Option.some_bind] at hvc
      rw [hcol] at hvc
      cases hvc
    have hpn : p.1 < n := (hkc.2.1 p.1).mp (mem_dictKeys_of_mem hp)
    have hvn : v < n := (hkc.2.1 v).mp hv
    refine ⟨p.1, hkc.2.2 v p.1 hvn hpn (fun he => hneq he.symm), ?_⟩
    unfold nodeColor
    rw [hlp]
    simpa using hcol

/-- The first-fit step on a complete graph: the assigned color is exactly
the number of already colored nodes, and the used-color set advances by
one. -/
theorem kc_color_step {g : Graph} {n t v : Nat} (hkc : KComplete g n)
    (hinv : List.Perm (colorsOf g) (List.range t)) (hv : v ∈ dictKeys g.nodes)
    (hvc : nodeColor g v = none) :
    get_smallest_available_color (g.get_neighbor_colors v) = t ∧
    List.Perm (colorsOf (setColor g v (some t))) (List.range (t + 1)) := by
  refine ⟨gsac_eq_of_iff (kc_neighbor_colors hkc hinv hv hvc), ?_⟩
  rcases hl : dictLookup g.nodes v with _ | nd
  · exact absurd ((dictLookup_eq_none _ _).mp hl) (by simpa using hv)
  · have hndc : nd.color = none := by
      unfold nodeColor at hvc
      rw [hl] at hvc
      simpa using hvc
    have h1 := colorsOf_setColor_perm hkc.1 hl hndc t
    have h2 : List.Perm (t :: colorsOf g) (t :: List.range t) := List.Perm.cons t hinv
    have h3 : List.Perm (List.range (t + 1)) (t :: List.range t) := by
      rw [List.range_succ]
      exact List.perm_append_singleton t (List.range t)
    exact List.Perm.trans (List.Perm.trans h1 h2) h3.symm

theorem kc_colorNodesInOrder {n : Nat} :
    ∀ (order : List Nat) (g : Graph) (t : Nat),
      KComplete g n → List.Perm (colorsOf g) (List.range t) → order.Nodup →
      (∀ x ∈ order, x ∈ dictKeys g.nodes ∧ nodeColor g x = none) →
      List.Perm (colorsOf (colorNodesInOrder g order)) (List.range (t + order.length)) := by
  intro order
  induction order with
  | nil =>
    intro g t _ hinv _ _
    exact hinv
  | cons x xs ih =>
    intro g t hkc hinv hnd hmem
    rcases hmem x (List.mem_cons_self _ _) with ⟨hx, hxc⟩
    rcases kc_color_step hkc hinv hx hxc with ⟨hgsac, hstep⟩
    unfold colorNodesInOrder at ih ⊢
    rw [List.foldl_cons, hgsac]
    have hkc1 := KComplete_setColor hkc x (some t)
    have hmem1 : ∀ y ∈ xs, y ∈ dictKeys (setColor g x (some t)).nodes ∧
        nodeColor (setColor g x (some t)) y = none := by
      intro y hy
      have hyx : y ≠ x := by
        intro he
        exact (List.nodup_cons.mp hnd).1 (he ▸ hy)
      rw [setColor_keys, nodeColor_setColor_ne g hyx]
      exact hmem y (List.mem_cons_of_mem _ hy)
    have := ih (setColor g x (some t)) (t + 1) hkc1 hstep (List.nodup_cons.mp hnd).2 hmem1
    have harith : t + 1 + xs.length = t + (xs.length + 1) := by omega
    rw [harith] at this
    exact this

theorem kc_dsaturLoop {n : Nat} :
    ∀ (fuel : Nat) (g : Graph) (unc : List Nat) (t : Nat),
      unc.length = fuel → KComplete g n → List.Perm (colorsOf g) (List.range t) →
      unc.Nodup →
      (∀ x ∈ unc, x ∈ dictKeys g.nodes ∧ nodeColor g x = none) →
      List.Perm (colorsOf (dsaturLoop fuel g unc)) (List.range (t + fuel)) := by
  intro fuel
  induction fuel with
  | zero =>
    intro g unc t _ _ hinv _ _
    exact hinv
  | succ m ih =>
    intro g unc t hlen hkc hinv hnd hmem
    have huc : unc ≠ [] := by
      intro h0
      rw [h0] at hlen
      cases hlen
    rw [dsaturLoop_succ_cons m g huc]
    have hsel := dsatur_select_mem g unc huc
    rcases hmem _ hsel with ⟨hselk, hselc⟩
    rcases kc_color_step hkc hinv hselk hselc with ⟨hgsac, hstep⟩
    have hassign : dsaturAssign g (dsatur_select g unc)
        = setColor g (dsatur_select g unc) (some t) := by
      unfold dsaturAssign
      rw [hgsac]
    rcases dsaturSatUpdate_frame (dsaturAssign g (dsatur_select g unc))
      (dsatur_select g unc) (unc.erase (dsatur_select g unc)) with ⟨_, hfa, hfc⟩
    have hkc1 : KComplete (dsaturAssign g (dsatur_select g unc)) n := by
      rw [hassign]
      exact KComplete_setColor hkc _ _
    have hkc2 := KComplete_of_frame hfc hfa hkc1
    have hinv2 : List.Perm (colorsOf (dsaturSatUpdate (dsaturAssign g (dsatur_select g unc))
        (dsatur_select g unc) (unc.erase (dsatur_select g unc)))) (List.range (t + 1)) := by
      rw [colorsOf_eq_of_colorMap hfc, hassign]
      exact hstep
    have hlen1 : (unc.erase (dsatur_select g unc)).length = m := by
      rw [List.length_erase_of_mem hsel, hlen]
      omega
    have hnd1 := List.Nodup.erase (dsatur_select g unc) hnd
    have hmem1 : ∀ x ∈ unc.erase (dsatur_select g unc),
        x ∈ dictKeys (dsaturSatUpdate (dsaturAssign g (dsatur_select g unc))
          (dsatur_select g unc) (unc.erase (dsatur_select g unc))).nodes ∧
        nodeColor (dsaturSatUpdate (dsaturAssign g (dsatur_select g unc))
          (dsatur_select g unc) (unc.erase (dsatur_select g unc))) x = none := by
      intro x hx
      rcases (List.Nodup.mem_erase_iff hnd).mp hx with ⟨hxne, hxmem⟩
      constructor
      · rw [dictKeys_eq_colorMap_keys, hfc, ← dictKeys_eq_colorMap_keys, hassign,
          setColor_keys]
        exact (hmem x hxmem).1
      · rw [nodeColor_eq_of_colorMap hfc, hassign, nodeColor_setColor_ne g hxne]
        exact (hmem x hxmem).2
    have := ih _ _ (t + 1) hlen1 hkc2 hinv2 hnd1 hmem1
    have harith : t + 1 + m = t + (m + 1) := by omega
    rw [harith] at this
    exact this

theorem tryColors_skip_prefix (node_id : Nat) (bt_rest : Graph → Graph × Bool)
    (ncolors : List Nat) :
    ∀ (pre cs : List Nat) (g : Graph), (∀ c ∈ pre, c ∈ ncolors) →
      tryColors node_id bt_rest ncolors (pre ++ cs) g
        = tryColors node_id bt_rest ncolors cs g := by
  intro pre
  induction pre with
  | nil =>
    intro cs g _
    rfl
  | cons c pre ih =>
    intro cs g hmem
    rw [List.cons_append, tryColors_skip node_id bt_rest g (hmem c (List.mem_cons_self _ _))]
    exact ih cs g (fun x hx => hmem x (List.mem_cons_of_mem _ hx))

theorem range_split {t k : Nat} (h : t < k) :
    ∃ tail, List.range k = List.range t ++ (t :: tail) := by
  obtain ⟨m, rfl⟩ : ∃ m, k = t + (m + 1) := ⟨k - t - 1, by omega⟩
  refine ⟨(List.range m).map (fun x => t + (x + 1)), ?_⟩
  rw [List.range_add]
  congr 1
  rw [List.range_succ_eq_map, List.map_cons, List.map_map]
  rfl

/-- On a complete graph with enough colors in the budget, the exhaustive
search succeeds on its first descent: every node takes the next unused
color, and no backtracking step ever fires. -/
theorem kc_backtrack {n k : Nat} :
    ∀ (rest : List Nat) (g : Graph) (t : Nat),
      KComplete g n → List.Perm (colorsOf g) (List.range t) → rest.Nodup →
      (∀ x ∈ rest, x ∈ dictKeys g.nodes ∧ nodeColor g x = none) →
      t + rest.length ≤ k →
      (backtrack k g rest).2 = true ∧
      List.Perm (colorsOf (backtrack k g rest).1) (List.range (t + rest.length)) := by
  intro rest
  induction rest with
  | nil =>
    intro g t _ hinv _ _ _
    rw [backtrack_nil]
    exact ⟨rfl, hinv⟩
  | cons x xs ih =>
    intro g t hkc hinv hnd hmem hk
    rcases hmem x (List.mem_cons_self _ _) with ⟨hx, hxc⟩
    have hnc := kc_neighbor_colors hkc hinv hx hxc
    have hxk : (x :: xs).length = xs.length + 1 := List.length_cons x xs
    have ht : t < k := by omega
    rcases range_split ht with ⟨tail, hsplit⟩
    rw [backtrack_cons, hsplit,
      tryColors_skip_prefix x _ _ (List.range t) (t :: tail) g
        (fun c hc => (hnc c).mpr (List.mem_range.mp hc))]
    have htnotin : t ∉ g.get_neighbor_colors x :=
      fun hmem0 => absurd ((hnc t).mp hmem0) (lt_irrefl t)
    rcases kc_color_step hkc hinv hx hxc with ⟨_, hstep⟩
    have hkc1 := KComplete_setColor hkc x (some t)
    have hmem1 : ∀ y ∈ xs, y ∈ dictKeys (setColor g x (some t)).nodes ∧
        nodeColor (setColor g x (some t)) y = none := by
      intro y hy
      have hyx : y ≠ x := by
        intro he
        exact (List.nodup_cons.mp hnd).1 (he ▸ hy)
      rw [setColor_keys, nodeColor_setColor_ne g hyx]
      exact hmem y (List.mem_cons_of_mem _ hy)
    have hk1 : t + 1 + xs.length ≤ k := by omega
    have hrec := ih (setColor g x (some t)) (t + 1) hkc1 hstep
      (List.nodup_cons.mp hnd).2 hmem1 hk1
    rw [tryColors_succeed x _ g htnotin hrec.1]
    refine ⟨hrec.1, ?_⟩
    have harith : t + (x :: xs).length = t + 1 + xs.length := by
      rw [hxk]; omega
    rw [harith]
    exact hrec.2

/-! ## The complete graph `K_n` as an operation sequence -/

/-- All ordered pairs `(i, j)` with `i < j < n`: the edge set of `K_n`. -/
def knPairs (n : Nat) : List (Nat × Nat) :=
  (List.range n).flatMap (fun j => (List.range j).map (fun i => (i, j)))

/-- The operation sequence building `K_n`: `Graph(n)` followed by
`add_edge(i, j)` for every pair. -/
def knOps (n : Nat) : List Op :=
  (List.range n).map Op.addNode ++ (knPairs n).map (fun p => Op.addEdge p.1 p.2)

/-- The complete graph on the node ids `0..n-1`. -/
def completeGraph (n : Nat) : Graph :=
  buildGraph (knOps n)

theorem mem_knPairs {n u v : Nat} : (u, v) ∈ knPairs n ↔ u < v ∧ v < n := by
  unfold knPairs
  simp only [List.mem_flatMap, List.mem_map, List.mem_range, Prod.mk.injEq]
  constructor
  · rintro ⟨j, hj, i, hi, rfl, rfl⟩
    exact ⟨hi, hj⟩
  · rintro ⟨huv, hvn⟩
    exact ⟨v, hvn, u, huv, rfl, rfl⟩

/-- The node-adding prefix of a build appends exactly the fresh ids, in
order. -/
theorem addNode_fold_keys :
    ∀ (l : List Nat) (g : Graph), (∀ i ∈ l, i ∉ dictKeys g.nodes) → l.Nodup →
      dictKeys (l.foldl (fun h i => h.add_node i) g).nodes = dictKeys g.nodes ++ l := by
  intro l
  induction l with
  | nil =>
    intro g _ _
    rw [List.foldl_nil, List.append_nil]
  | cons i l ih =>
    intro g hfresh hnd
    rw [List.foldl_cons]
    have hi : i ∉ dictKeys g.nodes := hfresh i (List.mem_cons_self _ _)
    rcases add_node_not_mem_spec hi with ⟨hn, _, _⟩
    have hkeys : dictKeys (g.add_node i).nodes = dictKeys g.nodes ++ [i] := by
      rw [hn]
      unfold dictKeys
      rw [List.map_append]
      rfl
    have hfresh1 : ∀ j ∈ l, j ∉ dictKeys (g.add_node i).nodes := by
      intro j hj hmem
      rw [hkeys, List.mem_append] at hmem
      rcases hmem with hmem | hmem
      · exact hfresh j (List.mem_cons_of_mem _ hj) hmem
      · exact (List.nodup_cons.mp hnd).1 ((List.mem_singleton.mp hmem) ▸ hj)
    rw [ih (g.add_node i) hfresh1 (List.nodup_cons.mp hnd).2, hkeys, List.append_assoc]
    rfl

theorem init_keys (n : Nat) : dictKeys (Graph.init n).nodes = List.range n := by
  unfold Graph.init buildGraph
  rw [List.foldl_map]
  have h := addNode_fold_keys (List.range n) Graph.empty
    (fun i _ hmem => by cases hmem) (List.nodup_range n)
  exact h

theorem GraphWF_init (n : Nat) : GraphWF (Graph.init n) :=
  buildGraph_WF _

/-- `add_edge` never changes the node key set. -/
theorem add_edge_nodes_keys (g : Graph) (u v : Nat) :
    dictKeys (g.add_edge u v).1.nodes = dictKeys g.nodes := by
  by_cases h1 : u ∉ dictKeys g.nodes ∨ v ∉ dictKeys g.nodes
  · rw [add_edge_raise_eq h1]
  · by_cases h23 : u ≠ v ∧ v ∉ adjGet g u
    · rw [add_edge_main_eq h1 h23, add_edge_result_nodes_keys]
    · rw [add_edge_noop_eq h1 h23]

/-- `add_edge` never removes an adjacency. -/
theorem add_edge_adjGet_mono {g : Graph} (u v : Nat) {w x : Nat}
    (hx : x ∈ adjGet g w) : x ∈ adjGet (g.add_edge u v).1 w := by
  by_cases h1 : u ∉ dictKeys g.nodes ∨ v ∉ dictKeys g.nodes
  · rw [add_edge_raise_eq h1]
    exact hx
  · by_cases h23 : u ≠ v ∧ v ∉ adjGet g u
    · rw [add_edge_main_eq h1 h23]
      exact add_edge_result_adjGet_superset h23.1 w x hx
    · rw [add_edge_noop_eq h1 h23]
      exact hx

/-- After `add_edge(u, v)` on present, distinct endpoints, the two ids are
adjacent in both directions (freshly inserted, or already there by the
undirected-symmetry invariant). -/
theorem add_edge_mem_after {g : Graph} {u v : Nat} (hwf : GraphWF g)
    (hu : u ∈ dictKeys g.nodes) (hv : v ∈ dictKeys g.nodes) (huv : u ≠ v) :
    v ∈ adjGet (g.add_edge u v).1 u ∧ u ∈ adjGet (g.add_edge u v).1 v := by
  have h1 : ¬ (u ∉ dictKeys g.nodes ∨ v ∉ dictKeys g.nodes) := by
    push_neg
    exact ⟨hu, hv⟩
  by_cases h23 : u ≠ v ∧ v ∉ adjGet g u
  · rw [add_edge_main_eq h1 h23]
    constructor
    · rw [add_edge_result_adjGet_u huv]
      exact mem_setAdd.mpr (Or.inr rfl)
    · rw [add_edge_result_adjGet_v huv]
      exact mem_setAdd.mpr (Or.inr rfl)
  · rw [add_edge_noop_eq h1 h23]
    have hvu : v ∈ adjGet g u := by
      by_contra hno
      exact h23 ⟨huv, hno⟩
    exact ⟨hvu, hwf.adjSymm hvu⟩

/-- The edge-adding suffix of a build, as a fold over the pair list. -/
def edgeFold (g : Graph) (ps : List (Nat × Nat)) : Graph :=
  ps.foldl (fun h p => (h.add_edge p.1 p.2).1) g

theorem edgeFold_nil (g : Graph) : edgeFold g [] = g := rfl

theorem edgeFold_cons (g : Graph) (p : Nat × Nat) (ps : List (Nat × Nat)) :
    edgeFold g (p :: ps) = edgeFold (g.add_edge p.1 p.2).1 ps := rfl

theorem edgeFold_WF : ∀ (ps : List (Nat × Nat)) (g : Graph), GraphWF g →
    GraphWF (edgeFold g ps) := by
  intro ps
  induction ps with
  | nil =>
    intro g hwf
    exact hwf
  | cons p ps ih =>
    intro g hwf
    rw [edgeFold_cons]
    exact ih _ (GraphWF_add_edge g p.1 p.2 hwf)

theorem edgeFold_keys : ∀ (ps : List (Nat × Nat)) (g : Graph),
    dictKeys (edgeFold g ps).nodes = dictKeys g.nodes := by
  intro ps
  induction ps with
  | nil =>
    intro g
    rfl
  | cons p ps ih =>
    intro g
    rw [edgeFold_cons, ih, add_edge_nodes_keys]

theorem edgeFold_adjGet_mono : ∀ (ps : List (Nat × Nat)) (g : Graph) (w x : Nat),
    x ∈ adjGet g w → x ∈ adjGet (edgeFold g ps) w := by
  intro ps
  induction ps with
  | nil =>
    intro g w x hx
    exact hx
  | cons p ps ih =>
    intro g w x hx
    rw [edgeFold_cons]
    exact ih _ w x (add_edge_adjGet_mono p.1 p.2 hx)

theorem edgeFold_pair_mem : ∀ (ps : List (Nat × Nat)) (g : Graph), GraphWF g →
    (∀ p ∈ ps, p.1 ∈ dictKeys g.nodes ∧ p.2 ∈ dictKeys g.nodes ∧ p.1 ≠ p.2) →
    ∀ u v, (u, v) ∈ ps →
      v ∈ adjGet (edgeFold g ps) u ∧ u ∈ adjGet (edgeFold g ps) v := by
  intro ps
  induction ps with
  | nil =>
    intro g _ _ u v hmem
    cases hmem
  | cons p ps ih =>
    intro g hwf hcond u v hmem
    rw [edgeFold_cons]
    have hwf1 := GraphWF_add_edge g p.1 p.2 hwf
    have hcond1 : ∀ q ∈ ps, q.1 ∈ dictKeys (g.add_edge p.1 p.2).1.nodes ∧
        q.2 ∈ dictKeys (g.add_edge p.1 p.2).1.nodes ∧ q.1 ≠ q.2 := by
      intro q hq
      rw [add_edge_nodes_keys]
      exact hcond q (List.mem_cons_of_mem _ hq)
    rcases List.mem_cons.mp hmem with hmem | hmem
    · subst hmem
      rcases hcond (u, v) (List.mem_cons_self _ _) with ⟨hp1, hp2, hp12⟩
      rcases add_edge_mem_after hwf hp1 hp2 hp12 with ⟨ha, hb⟩
      exact ⟨edgeFold_adjGet_mono ps _ _ _ ha, edgeFold_adjGet_mono ps _ _ _ hb⟩
    · exact ih _ hwf1 hcond1 u v hmem

theorem completeGraph_eq (n : Nat) :
    completeGraph n = edgeFold (Graph.init n) (knPairs n) := by
  unfold completeGraph knOps buildGraph Graph.init buildGraph edgeFold
  rw [List.foldl_append, List.foldl_map]
  rfl

theorem GraphWF_completeGraph (n : Nat) : GraphWF (completeGraph n) :=
  buildGraph_WF _

theorem completeGraph_keys (n : Nat) :
    dictKeys (completeGraph n).nodes = List.range n := by
  rw [completeGraph_eq, edgeFold_keys, init_keys]

theorem KComplete_completeGraph (n : Nat) : KComplete (completeGraph n) n := by
  refine ⟨?_, ?_, ?_⟩
  · rw [completeGraph_keys]
    exact List.nodup_range n
  · intro k
    rw [completeGraph_keys]
    exact List.mem_range
  · intro u v hu hv huv
    have hcond : ∀ p ∈ knPairs n, p.1 ∈ dictKeys (Graph.init n).nodes ∧
        p.2 ∈ dictKeys (Graph.init n).nodes ∧ p.1 ≠ p.2 := by
      intro p hp
      have hp' : (p.1, p.2) ∈ knPairs n := hp
      rcases mem_knPairs.mp hp' with ⟨h12, h2n⟩
      rw [init_keys]
      exact ⟨List.mem_range.mpr (by omega), List.mem_range.mpr h2n, by omega⟩
    rw [completeGraph_eq]
    rcases Nat.lt_or_ge u v with hlt | hge
    · exact (edgeFold_pair_mem (knPairs n) (Graph.init n) (GraphWF_init n) hcond u v
        (mem_knPairs.mpr ⟨hlt, hv⟩)).1
    · have hlt : v < u := by omega
      exact (edgeFold_pair_mem (knPairs n) (Graph.init n) (GraphWF_init n) hcond v u
        (mem_knPairs.mpr ⟨hlt, hu⟩)).2

theorem completeGraph_nodes_length (n : Nat) : (completeGraph n).nodes.length = n := by
  have h : (dictKeys (completeGraph n).nodes).length = (completeGraph n).nodes.length := by
    unfold dictKeys
    rw [List.length_map]
  rw [← h, completeGraph_keys, List.length_range]

/-! ## The four algorithms on `K_n` -/

theorem kc_chromatic {g : Graph} {n : Nat}
    (h : List.Perm (colorsOf g) (List.range n)) : g.get_chromatic_number = n := by
  unfold Graph.get_chromatic_number
  have h2 := h.dedup
  have h3 : (List.range n).dedup = List.range n :=
    List.dedup_eq_self.mpr (List.nodup_range n)
  have h4 : (colorsOf g).dedup.length = (List.range n).dedup.length := h2.length_eq
  rw [h3, List.length_range] at h4
  exact h4

theorem KComplete_reset {g : Graph} {n : Nat} (h : KComplete g n) :
    KComplete g.reset_colors n := by
  refine ⟨?_, ?_, ?_⟩
  · rw [reset_colors_keys]
    exact h.1
  · intro k
    rw [reset_colors_keys]
    exact h.2.1 k
  · intro u v hu hv huv
    rw [adjGet_eq_of_adjacency (rfl : g.reset_colors.adjacency = g.adjacency)]
    exact h.2.2 u v hu hv huv

theorem keys_reset_completeGraph (n : Nat) :
    dictKeys (completeGraph n).reset_colors.nodes = List.range n := by
  rw [reset_colors_keys, completeGraph_keys]

/-- Any permutation of the key set qualifies as a first-fit processing
order on the reset complete graph. -/
theorem kc_order_spec {n : Nat} {order : List Nat}
    (hperm : List.Perm order (dictKeys (completeGraph n).reset_colors.nodes)) :
    order.Nodup ∧ order.length = n ∧
    (∀ x ∈ order, x ∈ dictKeys (completeGraph n).reset_colors.nodes ∧
      nodeColor (completeGraph n).reset_colors x = none) := by
  have hkeys := keys_reset_completeGraph n
  have hknd : (dictKeys (completeGraph n).reset_colors.nodes).Nodup := by
    rw [hkeys]
    exact List.nodup_range n
  refine ⟨hperm.symm.nodup hknd, ?_, ?_⟩
  · rw [hperm.length_eq, hkeys, List.length_range]
  · intro x hx
    exact ⟨hperm.subset hx, nodeColor_reset_colors _ x⟩

/-- First-fit over any permutation of the nodes of `K_n` uses exactly the
colors `0..n-1`. -/
theorem kc_run_perm {n : Nat} {order : List Nat}
    (hperm : List.Perm order (dictKeys (completeGraph n).reset_colors.nodes)) :
    List.Perm (colorsOf (colorNodesInOrder (completeGraph n).reset_colors order))
      (List.range n) := by
  rcases kc_order_spec hperm with ⟨hnd, hlen, hmem⟩
  have h0 : List.Perm (colorsOf (completeGraph n).reset_colors) (List.range 0) := by
    rw [colorsOf_reset, List.range_zero]
  have hres := kc_colorNodesInOrder order (completeGraph n).reset_colors 0
    (KComplete_reset (KComplete_completeGraph n)) h0 hnd hmem
  rw [hlen] at hres
  simpa using hres

theorem kc_greedy (n : Nat) :
    List.Perm (colorsOf (greedy_coloring (completeGraph n))) (List.range n) := by
  unfold greedy_coloring
  exact kc_run_perm (sortAsc_perm _)

theorem kc_welsh (n : Nat) :
    List.Perm (colorsOf (welsh_powell (completeGraph n))) (List.range n) := by
  unfold welsh_powell
  exact kc_run_perm ((sortByDegDesc_perm _).map Prod.fst)

theorem kc_dsatur (n : Nat) (hn : 1 ≤ n) :
    List.Perm (colorsOf (dsatur (completeGraph n))) (List.range n) := by
  have hperm : List.Perm (sortAsc (dictKeys (completeGraph n).reset_colors.nodes))
      (dictKeys (completeGraph n).reset_colors.nodes) := sortAsc_perm _
  rcases kc_order_spec hperm with ⟨hnd, hlen, hmem⟩
  rcases hu : sortAsc (dictKeys (completeGraph n).reset_colors.nodes) with _ | ⟨x, xs⟩
  · rw [hu] at hlen
    simp at hlen
    omega
  · rw [dsatur_eq_of_cons hu]
    rw [hu] at hnd hlen hmem
    have hfmem : dsatur_first_choice (completeGraph n).reset_colors (x :: xs) ∈ x :: xs :=
      dsatur_first_choice_mem _ _ (List.cons_ne_nil x xs)
    rcases hmem _ hfmem with ⟨hfk, hfc⟩
    have hkc0 : KComplete (completeGraph n).reset_colors n :=
      KComplete_reset (KComplete_completeGraph n)
    have h0 : List.Perm (colorsOf (completeGraph n).reset_colors) (List.range 0) := by
      rw [colorsOf_reset, List.range_zero]
    rcases kc_color_step hkc0 h0 hfk hfc with ⟨_, hstep⟩
    rcases dsaturInitSat_frame
      (setColor (completeGraph n).reset_colors
        (dsatur_first_choice (completeGraph n).reset_colors (x :: xs)) (some 0))
      (dsatur_first_choice (completeGraph n).reset_colors (x :: xs))
      ((x :: xs).erase (dsatur_first_choice (completeGraph n).reset_colors (x :: xs)))
      with ⟨_, hfa, hfcm⟩
    have hkc1 := KComplete_of_frame hfcm hfa (KComplete_setColor hkc0 _ (some 0))
    have hinv1 : List.Perm (colorsOf (dsaturInitSat
        (setColor (completeGraph n).reset_colors
          (dsatur_first_choice (completeGraph n).reset_colors (x :: xs)) (some 0))
        (dsatur_first_choice (completeGraph n).reset_colors (x :: xs))
        ((x :: xs).erase (dsatur_first_choice (completeGraph n).reset_colors (x :: xs)))))
        (List.range 1) := by
      rw [colorsOf_eq_of_colorMap hfcm]
      exact hstep
    have hnd1 := List.Nodup.erase
      (dsatur_first_choice (completeGraph n).reset_colors (x :: xs)) hnd
    have hmem1 : ∀ y ∈ (x :: xs).erase
        (dsatur_first_choice (completeGraph n).reset_colors (x :: xs)),
        y ∈ dictKeys (dsaturInitSat
          (setColor (completeGraph n).reset_colors
            (dsatur_first_choice (completeGraph n).reset_colors (x :: xs)) (some 0))
          (dsatur_first_choice (completeGraph n).reset_colors (x :: xs))
          ((x :: xs).erase (dsatur_first_choice (completeGraph n).reset_colors (x :: xs)))).nodes ∧
        nodeColor (dsaturInitSat
          (setColor (completeGraph n).reset_colors
            (dsatur_first_choice (completeGraph n).reset_colors (x :: xs)) (some 0))
          (dsatur_first_choice (completeGraph n).reset_colors (x :: xs))
          ((x :: xs).erase (dsatur_first_choice (completeGraph n).reset_colors (x :: xs)))) y
          = none := by
      intro y hy
      rcases (List.Nodup.mem_erase_iff hnd).mp hy with ⟨hyne, hymem⟩
      constructor
      · rw [dictKeys_eq_colorMap_keys, hfcm, ← dictKeys_eq_colorMap_keys, setColor_keys]
        exact (hmem y hymem).1
      · rw [nodeColor_eq_of_colorMap hfcm, nodeColor_setColor_ne _ hyne]
        exact (hmem y hymem).2
    have hres := kc_dsaturLoop
      ((x :: xs).erase (dsatur_first_choice (completeGraph n).reset_colors (x :: xs))).length
      (dsaturInitSat
        (setColor (completeGraph n).reset_colors
          (dsatur_first_choice (completeGraph n).reset_colors (x :: xs)) (some 0))
        (dsatur_first_choice (completeGraph n).reset_colors (x :: xs))
        ((x :: xs).erase (dsatur_first_choice (completeGraph n).reset_colors (x :: xs))))
      ((x :: xs).erase (dsatur_first_choice (completeGraph n).reset_colors (x :: xs)))
      1 rfl hkc1 hinv1 hnd1 hmem1
    have hlen1 : ((x :: xs).erase
        (dsatur_first_choice (completeGraph n).reset_colors (x :: xs))).length = n - 1 := by
      rw [List.length_erase_of_mem hfmem, hlen]
    rw [hlen1] at hres
    have harith : 1 + (n - 1) = n := by omega
    rw [harith] at hres
    rw [hlen1]
    exact hres

theorem kc_backtracking_run (n : Nat) :
    (backtracking_run (completeGraph n) none).2 = true ∧
    List.Perm (colorsOf (backtracking_run (completeGraph n) none).1) (List.range n) := by
  have hkeys := keys_reset_completeGraph n
  have hkc0 : KComplete (completeGraph n).reset_colors n :=
    KComplete_reset (KComplete_completeGraph n)
  have h0 : List.Perm (colorsOf (completeGraph n).reset_colors) (List.range 0) := by
    rw [colorsOf_reset, List.range_zero]
  have hnd : (dictKeys (completeGraph n).reset_colors.nodes).Nodup := by
    rw [hkeys]
    exact List.nodup_range n
  have hmem : ∀ x ∈ dictKeys (completeGraph n).reset_colors.nodes,
      x ∈ dictKeys (completeGraph n).reset_colors.nodes ∧
      nodeColor (completeGraph n).reset_colors x = none :=
    fun x hx => ⟨hx, nodeColor_reset_colors _ x⟩
  have hnl : (completeGraph n).reset_colors.nodes.length = n := by
    have h1 : (completeGraph n).reset_colors.nodes.length
        = (completeGraph n).nodes.length := by
      unfold Graph.reset_colors
      rw [List.length_map]
    rw [h1, completeGraph_nodes_length]
  have hkl : (dictKeys (completeGraph n).reset_colors.nodes).length = n := by
    rw [hkeys, List.length_range]
  have hbudget : 0 + (dictKeys (completeGraph n).reset_colors.nodes).length
      ≤ (completeGraph n).reset_colors.nodes.length := by
    rw [hkl, hnl]
    omega
  have hres := kc_backtrack (dictKeys (completeGraph n).reset_colors.nodes)
    (completeGraph n).reset_colors 0 hkc0 h0 hnd hmem hbudget
  rw [hkl] at hres
  have harith : 0 + n = n := by omega
  rw [harith] at hres
  exact hres

theorem kc_backtracking_perm (n : Nat) :
    List.Perm (colorsOf (backtracking_run (completeGraph n) none).1) (List.range n) :=
  (kc_backtracking_run n).2

theorem backtracking_exact_of_flag {g : Graph} {mc : Option Nat}
    (hf : (backtracking_run g mc).2 = true) :
    backtracking_exact g mc
      = (BTResult.success (compute_stats (backtracking_run g mc).1 "Backtracking-Exact"),
         (backtracking_run g mc).1) := by
  unfold backtracking_exact
  rw [if_pos hf]

theorem compute_stats_chromatic (g : Graph) (a : String) :
    (compute_stats g a).chromatic_number = g.get_chromatic_number := rfl

theorem compute_stats_conflicts (g : Graph) (a : String) :
    (compute_stats g a).conflicts = g.count_conflicts := rfl

/-- C9: For every n ≥ 1, on the complete graph `K_n` (every pair of the
`n` nodes connected) each of the four algorithms completes with exactly
`n` distinct colors used and 0 conflicts; the exhaustive search succeeds
and reports exactly this in its returned statistics. -/
theorem C9_complete_graph_exact_colors (n : Nat) (hn : 1 ≤ n) :
    (greedy_coloring (completeGraph n)).get_chromatic_number = n ∧
    (greedy_coloring (completeGraph n)).count_conflicts = 0 ∧
    (welsh_powell (completeGraph n)).get_chromatic_number = n ∧
    (welsh_powell (completeGraph n)).count_conflicts = 0 ∧
    (dsatur (completeGraph n)).get_chromatic_number = n ∧
    (dsatur (completeGraph n)).count_conflicts = 0 ∧
    ∃ s, (backtracking_exact (completeGraph n) none).1 = BTResult.success s ∧
      s.chromatic_number = n ∧ s.conflicts = 0 := by
  have hwf := GraphWF_completeGraph n
  have hEA := hwf.edgeAdj
  have hNSL := hwf.noSelfLoop
  refine ⟨kc_chromatic (kc_greedy n),
    count_conflicts_eq_zero (greedy_coloring_proper hEA hNSL),
    kc_chromatic (kc_welsh n),
    count_conflicts_eq_zero (welsh_powell_proper hEA hNSL),
    kc_chromatic (kc_dsatur n hn),
    count_conflicts_eq_zero (dsatur_proper hEA hNSL).1, ?_⟩
  have hflag := (kc_backtracking_run n).1
  refine ⟨compute_stats (backtracking_run (completeGraph n) none).1 "Backtracking-Exact",
    ?_, ?_, ?_⟩
  · rw [backtracking_exact_of_flag hflag]
  · rw [compute_stats_chromatic]
    exact kc_chromatic (kc_backtracking_perm n)
  · rw [compute_stats_conflicts]
    exact count_conflicts_eq_zero
      (backtracking_run_proper hwf.nodesNodup hEA hNSL none hflag)

/-- Witness for C9 at `n = 3`: `K_3` needs and gets exactly 3 colors. -/
theorem C9_complete_graph_exact_colors_witness :
    1 ≤ 3 ∧
    ((greedy_coloring (completeGraph 3)).get_chromatic_number = 3 ∧
     (greedy_coloring (completeGraph 3)).count_conflicts = 0 ∧
     (welsh_powell (completeGraph 3)).get_chromatic_number = 3 ∧
     (welsh_powell (completeGraph 3)).count_conflicts = 0 ∧
     (dsatur (completeGraph 3)).get_chromatic_number = 3 ∧
     (dsatur (completeGraph 3)).count_conflicts = 0 ∧
     ∃ s, (backtracking_exact (completeGraph 3) none).1 = BTResult.success s ∧
       s.chromatic_number = 3 ∧ s.conflicts = 0) :=
  ⟨by decide, C9_complete_graph_exact_colors 3 (by decide)⟩

end GraphColoring
